import Mathlib

/-! # nlfsm: transition table lookup and the event driver

A shallow embedding of `src/src/nlfsm-machine.cpp`, `src/src/nlfsm-driver.cpp`,
`src/src/nlfsm-state-delegate-boolean.cpp` and
`src/src/nlfsm-state-delegate-random.cpp`.

* C++ objects reached through pointers live in a `World`: the one
  `Machine`, the data of the one delegate object, and a ghost log of the
  hook invocations and of the `SetCurrentState` calls, in program order.
* A read through `mFirstTransition + i` outside the array the pointer
  designates (or through a null pointer) is undefined behaviour in C++; it
  is the result `Found.fault`, and `none` for the driver entry points.
* `inCurrentState` is a `const State &`. `Driver::HandleEvent(inEvent)` binds
  it to the reference returned by `Machine::GetCurrentState`, that is to the
  member `mCurrentState` itself, so the state a hook receives through it is
  the machine's state at the moment of the call (`StateRef`).
* The generator of the C library (`lrand48`, `srand48`) is a parameter of the
  random delegate, acting on an explicit generator state.
* `rand_range<T>` evaluates `max - min + 1` in `T` after the integral
  promotions, before the value is stored into the `int64_t`; the arithmetic
  of that type is a parameter of `rand_range` (`wrapSigned 32` for `int`).
-/

namespace Fsm

/-! ## Data model -/

/-- Modelled from the spec: `nlfsm-state.hpp` is not among the sources; a
state is a small integral identifier that is only copied and compared. -/
abbrev State := Nat

/-- Modelled from the spec: `nlfsm-event.hpp` is not among the sources; an
event is a small integral identifier that is only copied and compared. -/
abbrev Event := Nat

/-- Modelled from the spec: `nlfsm-transition.hpp` is not among the
sources; the record `(mStart, mEvent, mEnd)` with structural equality, as
used by `FindTransitionPredicate` and by the driver. -/
structure Transition where
  mStart : State
  mEvent : Event
  mEnd : State
deriving DecidableEq, Repr

/-- Data members of `class Machine` (the ones the constructors assign).
`mFirstTransition` is a pointer: `none` is `NULL`, `some table` is the
address of the first element of the caller-owned array `table`. -/
structure Machine where
  mCurrentState : State
  mCount : Nat
  mFirstTransition : Option (List Transition)
deriving DecidableEq, Repr

/-- A `const State &` argument. `current` is the reference handed out by
`Machine::GetCurrentState`, which designates the member `mCurrentState` of
the machine of the world and so follows its writes; `value s` is a reference
to a `State` object of the caller that holds `s` and is not written during
the call. -/
inductive StateRef where
  | current
  | value (s : State)
deriving DecidableEq, Repr

/-- The value handed back by `Machine::FindTransition`: `NULL`, or the
pointer `mFirstTransition + index` together with the entry it points to;
`fault` is a read outside the designated array. -/
inductive Found where
  | null
  | entry (index : Nat) (target : Transition)
  | fault
deriving DecidableEq, Repr

/-- The eight methods of `Delegate::Base`, in the order the header
declares them. -/
inductive Hook where
  | WillHandleEvent
  | DidHandleEvent
  | WillExitState
  | DidExitState
  | WillTransition
  | DidTransition
  | WillEnterState
  | DidEnterState
deriving DecidableEq, Repr, Fintype

/-- Second argument of a hook: the current state for the two event
reception hooks, the transition for the other six. -/
inductive HookArg where
  | state (s : State)
  | transition (t : Transition)
deriving DecidableEq, Repr

/-- One entry of the ghost log. `call` records a hook invocation with its
arguments, the machine's current state at the moment of the invocation and
the value the hook returned; `setCurrentState` records a call of
`Machine::SetCurrentState`. -/
inductive Effect where
  | call (hook : Hook) (event : Event) (arg : HookArg) (observed : State) (result : Bool)
  | setCurrentState (s : State)
deriving DecidableEq, Repr

/-- The abstract class `Delegate::Base`: eight pure virtual methods. An
implementation acts on the data `δ` of the delegate object (a generator
state, say) and returns its verdict with the new data. -/
structure Delegate.Base (δ : Type) where
  WillHandleEvent : Event → State → δ → Bool × δ
  DidHandleEvent : Event → State → δ → Bool × δ
  WillExitState : Event → Transition → δ → Bool × δ
  DidExitState : Event → Transition → δ → Bool × δ
  WillTransition : Event → Transition → δ → Bool × δ
  DidTransition : Event → Transition → δ → Bool × δ
  WillEnterState : Event → Transition → δ → Bool × δ
  DidEnterState : Event → Transition → δ → Bool × δ

/-- Data members of `class Driver`. `mMachine` is `true` when the pointer
is non-null, and then designates the machine of the world; `mDelegate` is
`none` for `NULL`, else the method table of the delegate object whose data
is held by the world. -/
structure Driver (δ : Type) where
  mMachine : Bool
  mDelegate : Option (Delegate.Base δ)

/-- The objects a driver works on, and the ghost log. -/
structure World (δ : Type) where
  machine : Machine
  delegate : δ
  log : List Effect

/-! ## Machine (`nlfsm-machine.cpp`) -/

/-- The call `FindTransitionPredicate::operator()` of the predicate object built
from `(inState, inEvent)`. -/
def FindTransitionPredicate (mState : State) (mEvent : Event)
    (inTransition : Transition) : Bool :=
  (mState == inTransition.mStart) && (mEvent == inTransition.mEvent)

/-- The constructor `Machine::Machine(void)`. -/
def Machine.init : Machine :=
  { mCurrentState := 0, mCount := 0, mFirstTransition := none }

/-- The method `Machine::SetTransitions`. -/
def Machine.SetTransitions (_m : Machine) (inTransitions : Option (List Transition))
    (inCount : Nat) (inCurrentState : State) : Machine :=
  { mCurrentState := inCurrentState, mCount := inCount, mFirstTransition := inTransitions }

/-- The constructor `Machine::Machine(inTransitions, inCount, inCurrentState)`: the fields
are left uninitialised and then all assigned by `SetTransitions`. -/
def Machine.create (inTransitions : Option (List Transition)) (inCount : Nat)
    (inCurrentState : State) : Machine :=
  Machine.SetTransitions Machine.init inTransitions inCount inCurrentState

/-- The method `Machine::GetCurrentState`. -/
def Machine.GetCurrentState (m : Machine) : State :=
  m.mCurrentState

/-- The method `Machine::SetCurrentState`. -/
def Machine.SetCurrentState (m : Machine) (inState : State) : Machine :=
  { m with mCurrentState := inState }

/-- The state read through a `const State &` while the machine is `m`. -/
def StateRef.read (r : StateRef) (m : Machine) : State :=
  match r with
  | StateRef.current => m.mCurrentState
  | StateRef.value s => s

/-- The entry read through the pointer `mFirstTransition + i`, when that
address lies in the designated array. -/
def Machine.read (m : Machine) (i : Nat) : Option Transition :=
  match m.mFirstTransition with
  | none => none
  | some table => table.get? i

/-- The loop `while ((start != end) && !theFinder(start)) ++start` followed
by `return (start != end) ? start : NULL`. `start` is the offset of the
scanning pointer from `mFirstTransition`; `remaining` is `end - start`, so
`start != end` is `remaining ≠ 0`. -/
def Machine.FindTransition.loop (m : Machine) (theFinder : Transition → Bool) :
    (remaining : Nat) → (start : Nat) → Found
  | 0, _ => Found.null
  | remaining + 1, start =>
    match m.read start with
    | none => Found.fault
    | some t =>
      if theFinder t then Found.entry start t
      else Machine.FindTransition.loop m theFinder remaining (start + 1)

/-- The method `Machine::FindTransition`. -/
def Machine.FindTransition (m : Machine) (inState : State) (inEvent : Event) : Found :=
  Machine.FindTransition.loop m (FindTransitionPredicate inState inEvent) m.mCount 0

/-! ## Driver (`nlfsm-driver.cpp`) -/

variable {δ : Type}

/-- A call `mDelegate->hook(inEvent, arg)`: the method `f` runs on the
delegate's data, and the invocation is appended to the log. -/
def World.invoke (w : World δ) (h : Hook) (inEvent : Event) (arg : HookArg)
    (f : δ → Bool × δ) : Bool × World δ :=
  let r := f w.delegate
  (r.1, { w with
    delegate := r.2
    log := w.log ++ [Effect.call h inEvent arg w.machine.GetCurrentState r.1] })

/-- A call `mMachine->SetCurrentState(inState)`, appended to the log. -/
def World.SetCurrentState (w : World δ) (inState : State) : World δ :=
  { w with
    machine := w.machine.SetCurrentState inState
    log := w.log ++ [Effect.setCurrentState inState] }

/-- The constructor `Driver::Driver(void)`. -/
def Driver.init : Driver δ :=
  { mMachine := false, mDelegate := none }

/-- The method `Driver::SetMachine`, binding the machine of the world. -/
def Driver.SetMachine (d : Driver δ) : Driver δ :=
  { d with mMachine := true }

/-- The method `Driver::SetDelegate`. -/
def Driver.SetDelegate (d : Driver δ) (inDelegate : Option (Delegate.Base δ)) : Driver δ :=
  { d with mDelegate := inDelegate }

/-- The constructor `Driver::Driver(inMachine, inDelegate)`. -/
def Driver.create (inDelegate : Option (Delegate.Base δ)) : Driver δ :=
  Driver.SetDelegate (Driver.SetMachine Driver.init) inDelegate

/-- The overload `Driver::HandleEvent(inEvent, inCurrentState, inTransition)`. Each
`nlEXPECT(status == true, done)` is `if status = true then ... else
(status, w)`. `inCurrentState` is a reference: its value is read when a hook
is called with it. -/
def Driver.HandleEventTransition (d : Driver δ) (inEvent : Event) (inCurrentState : StateRef)
    (inTransition : Transition) (w : World δ) : Bool × World δ :=
  let nextState := inTransition.mEnd
  if d.mMachine = false then (false, w) else
  match d.mDelegate with
  | none => (false, w)
  | some dg =>
    let r1 := w.invoke Hook.WillHandleEvent inEvent
      (HookArg.state (inCurrentState.read w.machine))
      (dg.WillHandleEvent inEvent (inCurrentState.read w.machine))
    if r1.1 = true then
      let r2 := r1.2.invoke Hook.WillExitState inEvent (HookArg.transition inTransition)
        (dg.WillExitState inEvent inTransition)
      if r2.1 = true then
        let r3 := r2.2.invoke Hook.DidExitState inEvent (HookArg.transition inTransition)
          (dg.DidExitState inEvent inTransition)
        if r3.1 = true then
          let r4 := r3.2.invoke Hook.WillTransition inEvent (HookArg.transition inTransition)
            (dg.WillTransition inEvent inTransition)
          if r4.1 = true then
            let r5 := r4.2.invoke Hook.DidTransition inEvent (HookArg.transition inTransition)
              (dg.DidTransition inEvent inTransition)
            if r5.1 = true then
              let r6 := r5.2.invoke Hook.WillEnterState inEvent
                (HookArg.transition inTransition) (dg.WillEnterState inEvent inTransition)
              if r6.1 = true then
                let w6 := r6.2.SetCurrentState nextState
                let r7 := w6.invoke Hook.DidEnterState inEvent
                  (HookArg.transition inTransition) (dg.DidEnterState inEvent inTransition)
                if r7.1 = true then
                  let r8 := r7.2.invoke Hook.DidHandleEvent inEvent
                    (HookArg.state (inCurrentState.read r7.2.machine))
                    (dg.DidHandleEvent inEvent (inCurrentState.read r7.2.machine))
                  r8
                else r7
              else r6
            else r5
          else r4
        else r3
      else r2
    else r1

/-- The overload `Driver::HandleEvent(inEvent, inCurrentState)`; `none` when the table
lookup reads outside the table. -/
def Driver.HandleEventState (d : Driver δ) (inEvent : Event) (inCurrentState : StateRef)
    (w : World δ) : Option (Bool × World δ) :=
  if d.mMachine = false then some (false, w) else
  match w.machine.FindTransition (inCurrentState.read w.machine) inEvent with
  | Found.fault => none
  | Found.null => some (false, w)
  | Found.entry _ theTransition =>
    some (d.HandleEventTransition inEvent inCurrentState theTransition w)

/-- The overload `Driver::HandleEvent(inEvent)`. `mMachine->GetCurrentState()`
returns a reference to the member `mCurrentState`, and that reference is what
the parameter `inCurrentState` of the next overload is bound to. -/
def Driver.HandleEvent (d : Driver δ) (inEvent : Event) (w : World δ) :
    Option (Bool × World δ) :=
  if d.mMachine = false then some (false, w) else
  d.HandleEventState inEvent StateRef.current w

/-! ## Delegates of the library -/

/-- The delegate `Delegate::Boolean` (`nlfsm-state-delegate-boolean.cpp`): every hook
returns the data member `mBoolean`, which is the delegate's data. -/
def Delegate.Boolean : Delegate.Base Bool :=
  { WillHandleEvent := fun _ _ mBoolean => (mBoolean, mBoolean)
    DidHandleEvent := fun _ _ mBoolean => (mBoolean, mBoolean)
    WillExitState := fun _ _ mBoolean => (mBoolean, mBoolean)
    DidExitState := fun _ _ mBoolean => (mBoolean, mBoolean)
    WillTransition := fun _ _ mBoolean => (mBoolean, mBoolean)
    DidTransition := fun _ _ mBoolean => (mBoolean, mBoolean)
    WillEnterState := fun _ _ mBoolean => (mBoolean, mBoolean)
    DidEnterState := fun _ _ mBoolean => (mBoolean, mBoolean) }

/-- Modelled from the spec: `nlfsm-state-delegate-always.hpp` is not among
the sources; the delegate `Delegate::Always` gives the fixed response `true`
from every hook and has no data. -/
def Delegate.Always : Delegate.Base Unit :=
  { WillHandleEvent := fun _ _ u => (true, u)
    DidHandleEvent := fun _ _ u => (true, u)
    WillExitState := fun _ _ u => (true, u)
    DidExitState := fun _ _ u => (true, u)
    WillTransition := fun _ _ u => (true, u)
    DidTransition := fun _ _ u => (true, u)
    WillEnterState := fun _ _ u => (true, u)
    DidEnterState := fun _ _ u => (true, u) }

/-- Modelled from the spec: `nlfsm-state-delegate-never.hpp` is not among
the sources; the delegate `Delegate::Never` gives the fixed response `false`
from every hook and has no data. -/
def Delegate.Never : Delegate.Base Unit :=
  { WillHandleEvent := fun _ _ u => (false, u)
    DidHandleEvent := fun _ _ u => (false, u)
    WillExitState := fun _ _ u => (false, u)
    DidExitState := fun _ _ u => (false, u)
    WillTransition := fun _ _ u => (false, u)
    DidTransition := fun _ _ u => (false, u)
    WillEnterState := fun _ _ u => (false, u)
    DidEnterState := fun _ _ u => (false, u) }

/-! ## Reading the log -/

/-- The hook invocations of a log, each with the value it returned, in
program order. -/
def hookResults : List Effect → List (Hook × Bool)
  | [] => []
  | Effect.call h _ _ _ b :: l => (h, b) :: hookResults l
  | Effect.setCurrentState _ :: l => hookResults l

/-- The hooks invoked in a log, in program order. -/
def hooksInvoked (l : List Effect) : List Hook :=
  (hookResults l).map Prod.fst

/-- The order in which the body of
`Driver::HandleEvent(inEvent, inCurrentState, inTransition)` calls the
hooks. -/
def Driver.pipeline : List Hook :=
  [Hook.WillHandleEvent, Hook.WillExitState, Hook.DidExitState, Hook.WillTransition,
   Hook.DidTransition, Hook.WillEnterState, Hook.DidEnterState, Hook.DidHandleEvent]

/-- A delegate all of whose hooks return `b` on every argument and every
data. -/
def Delegate.Base.AlwaysReturns (dg : Delegate.Base δ) (b : Bool) : Prop :=
  (∀ e s x, (dg.WillHandleEvent e s x).1 = b) ∧
  (∀ e s x, (dg.DidHandleEvent e s x).1 = b) ∧
  (∀ e t x, (dg.WillExitState e t x).1 = b) ∧
  (∀ e t x, (dg.DidExitState e t x).1 = b) ∧
  (∀ e t x, (dg.WillTransition e t x).1 = b) ∧
  (∀ e t x, (dg.DidTransition e t x).1 = b) ∧
  (∀ e t x, (dg.WillEnterState e t x).1 = b) ∧
  (∀ e t x, (dg.DidEnterState e t x).1 = b)

/-- One verdict taken from a script: the head of the list, `true` once the
script is used up. -/
def Delegate.Scripted.next : List Bool → Bool × List Bool
  | [] => (true, [])
  | b :: rest => (b, rest)

/-- A test delegate whose data is a script of verdicts: every hook call
consumes the next verdict of the script, whatever the hook and its
arguments. -/
def Delegate.Scripted : Delegate.Base (List Bool) :=
  { WillHandleEvent := fun _ _ => Delegate.Scripted.next
    DidHandleEvent := fun _ _ => Delegate.Scripted.next
    WillExitState := fun _ _ => Delegate.Scripted.next
    DidExitState := fun _ _ => Delegate.Scripted.next
    WillTransition := fun _ _ => Delegate.Scripted.next
    DidTransition := fun _ _ => Delegate.Scripted.next
    WillEnterState := fun _ _ => Delegate.Scripted.next
    DidEnterState := fun _ _ => Delegate.Scripted.next }

/-- The world of a machine bound to the whole of table `T` and sitting in
state `c`, a delegate with data `x`, and the log so far. -/
def World.ofTable (T : List Transition) (c : State) (x : δ) (log : List Effect) : World δ :=
  { machine := Machine.create (some T) T.length c, delegate := x, log := log }

/-- A table with two entries for the same `(start, event)` and different
destinations. -/
def duplicateTable : List Transition :=
  [Transition.mk 0 0 1, Transition.mk 0 0 2]

/-- A table with the single arc `0 --0--> 1`. -/
def singleTable : List Transition :=
  [Transition.mk 0 0 1]

/-- The log written by a pass of the pipeline on event `e` and transition
`t`, started with the machine in state `c`, in which the hooks at positions
`0 .. k - 1` of `Driver.pipeline` return `true` and the hook at position `k`
returns `b`; `s0` and `s1` are the states read through `inCurrentState`
before and after the write of the end state. -/
def Driver.passLog (e : Event) (s0 s1 : State) (t : Transition) (c : State) (k : Nat)
    (b : Bool) : List Effect :=
  let before : List (Bool → Effect) :=
    [Effect.call Hook.WillHandleEvent e (HookArg.state s0) c,
     Effect.call Hook.WillExitState e (HookArg.transition t) c,
     Effect.call Hook.DidExitState e (HookArg.transition t) c,
     Effect.call Hook.WillTransition e (HookArg.transition t) c,
     Effect.call Hook.DidTransition e (HookArg.transition t) c,
     Effect.call Hook.WillEnterState e (HookArg.transition t) c]
  let after : List (Bool → Effect) :=
    [Effect.call Hook.DidEnterState e (HookArg.transition t) t.mEnd,
     Effect.call Hook.DidHandleEvent e (HookArg.state s1) t.mEnd]
  if k < 6 then
    (before.take k).map (fun f => f true) ++ ((before.drop k).take 1).map (fun f => f b)
  else
    before.map (fun f => f true) ++ Effect.setCurrentState t.mEnd ::
      ((after.take (k - 6)).map (fun f => f true)
        ++ ((after.drop (k - 6)).take 1).map (fun f => f b))

/-- The first entry of `T`, in table order, whose `(mStart, mEvent)` is
`(s, e)`. -/
def firstMatch (T : List Transition) (s : State) (e : Event) : Option Transition :=
  T.find? (fun u => decide (u.mStart = s ∧ u.mEvent = e))

/-- The hooks invoked, each with its verdict, in a pass in which the hooks
at positions `0 .. k - 1` of `Driver.pipeline` return `true` and the hook at
position `k` returns `b`. -/
def Driver.passResults (k : Nat) (b : Bool) : List (Hook × Bool) :=
  (Driver.pipeline.take k).map (fun h => (h, true))
    ++ [(Driver.pipeline.getD k Hook.DidHandleEvent, b)]

/-- The hooks invoked in a log, each with the machine's current state at the
moment of the invocation, in program order. -/
def hookObservations : List Effect → List (Hook × State)
  | [] => []
  | Effect.call h _ _ observed _ :: l => (h, observed) :: hookObservations l
  | Effect.setCurrentState _ :: l => hookObservations l

/-- A caller's sequence of `HandleEvent(inEvent)` calls, each through its own
driver, on the one machine of the world: the status of every call with the
machine's current state right after it, and the final world; `none` when a
call reads outside the table. -/
def Driver.runEvents : List (Driver δ × Event) → World δ →
    Option (List (Bool × State) × World δ)
  | [], w => some ([], w)
  | (d, inEvent) :: rest, w =>
    match d.HandleEvent inEvent w with
    | none => none
    | some r =>
      match Driver.runEvents rest r.2 with
      | none => none
      | some p => some ((r.1, r.2.machine.GetCurrentState) :: p.1, p.2)

/-! ## The reference table of `nlfsm-test.cpp` -/

/-- The enumerator `kEventForward` of the test. -/
def kEventForward : Event := 0

/-- The enumerator `kEventStay` of the test. -/
def kEventStay : Event := 1

/-- The enumerator `kEventBackward` of the test. -/
def kEventBackward : Event := 2

/-- The enumerator `kEventSkip` of the test. -/
def kEventSkip : Event := 3

/-- The enumerator `kEventError` of the test. -/
def kEventError : Event := 4

/-- The enumerator `kStateA` of the test. -/
def kStateA : State := 0

/-- The enumerator `kStateB` of the test. -/
def kStateB : State := 1

/-- The enumerator `kStateC` of the test. -/
def kStateC : State := 2

/-- The enumerator `kStateD` of the test. -/
def kStateD : State := 3

/-- The array `sTransitions` of `GetTransitions` in the test: five arcs from
each of `A`, `B` and `C`, none from `D`. -/
def sTransitions : List Transition :=
  [ Transition.mk kStateA kEventStay kStateA,
    Transition.mk kStateA kEventForward kStateB,
    Transition.mk kStateA kEventBackward kStateC,
    Transition.mk kStateA kEventSkip kStateC,
    Transition.mk kStateA kEventError kStateD,
    Transition.mk kStateB kEventStay kStateB,
    Transition.mk kStateB kEventForward kStateC,
    Transition.mk kStateB kEventBackward kStateA,
    Transition.mk kStateB kEventSkip kStateA,
    Transition.mk kStateB kEventError kStateD,
    Transition.mk kStateC kEventStay kStateC,
    Transition.mk kStateC kEventForward kStateA,
    Transition.mk kStateC kEventBackward kStateB,
    Transition.mk kStateC kEventSkip kStateB,
    Transition.mk kStateC kEventError kStateD ]

/-- The statuses and states expected from a run of calls through two
drivers on a machine over `T` starting in `c`: a call through the
always-true driver (`true`) takes the first matching arc, if there is one,
and succeeds; a call through the always-false driver (`false`), or without a
matching arc, fails and leaves the state. -/
def alternatingTrace (T : List Transition) : State → List (Bool × Event) →
    List (Bool × State)
  | _, [] => []
  | c, (always, e) :: rest =>
    match firstMatch T c e with
    | none => (false, c) :: alternatingTrace T c rest
    | some t =>
      if always then (true, t.mEnd) :: alternatingTrace T t.mEnd rest
      else (false, c) :: alternatingTrace T c rest

/-- The calls of the scenario of `TestDriver`, told as in the claim: each
event goes first to the driver with the always-true delegate (`true`), then
to the driver with the always-false delegate (`false`). -/
def scenarioCalls : List (Bool × Event) :=
  [(true, kEventForward), (false, kEventForward),
   (true, kEventBackward), (false, kEventBackward),
   (true, kEventSkip), (false, kEventSkip),
   (true, kEventError), (false, kEventError),
   (true, kEventStay), (false, kEventStay),
   (true, kEventForward), (false, kEventForward),
   (true, kEventBackward), (false, kEventBackward),
   (true, kEventSkip), (false, kEventSkip),
   (true, kEventError), (false, kEventError)]

/-! ## The random delegate (`nlfsm-state-delegate-random.cpp`) -/

/-- Integral promotion of a `bool`. -/
def boolToInt : Bool → Int
  | false => 0
  | true => 1

/-- The conversion `static_cast<bool>` of an integer. -/
def intToBool (v : Int) : Bool :=
  decide (v ≠ 0)

/-- The value that an arithmetic operation in a signed type of `bits` bits
leaves when its mathematical result is `v`: the two's complement reduction.
Signed overflow is undefined behaviour in C++; the wrapped value is what the
usual compilers compute, and the model takes it. -/
def wrapSigned (bits : Nat) (v : Int) : Int :=
  (v + 2 ^ (bits - 1)) % 2 ^ bits - 2 ^ (bits - 1)

/-- The function template `rand_range<T>(min, max)`. `toInt` is the value of
a `T`, `ofInt` is the conversion of an integer to `T` (the `static_cast<T>` of
the result, and the conversion of the literal `0`), and `arith` is the
arithmetic of the type in which `max - min + 1` is evaluated, which is `T`
after the integral promotions: it sends the mathematical result of an
operation to the value the operation leaves (`wrapSigned 32` for `bool`,
`short` and `int`). Only then is the value stored into the `int64_t`
`theValue`. `lrand48` is the generator of the C library, acting on the
generator state `g` and giving a draw and the next state. The three
statements on the `int64_t` are carried out in the integers: for a `T` of at
most 32 bits and a draw in `[0, 2^31 - 1]` no value leaves the 64 bits. The
division truncates as in C. -/
def rand_range {T γ : Type} (toInt : T → Int) (ofInt : Int → T) (arith : Int → Int)
    (lrand48 : γ → Int × γ) (min max : T) (g : γ) : T × γ :=
  if toInt min > toInt max then (ofInt 0, g)
  else
    let theValue : Int := arith (arith (toInt max - toInt min) + 1)
    let draw := lrand48 g
    let theValue : Int := theValue * draw.1
    let theValue : Int := Int.tdiv theValue (2147483647 + 1)
    let theValue : Int := theValue + toInt min
    (ofInt theValue, draw.2)

/-- The method `Random::GetStatus`: `rand_range<bool>(false, true)`. The
operands of `max - min + 1` are promoted to `int`. -/
def Delegate.Random.GetStatus {γ : Type} (lrand48 : γ → Int × γ) (g : γ) : Bool × γ :=
  rand_range boolToInt intToBool (wrapSigned 32) lrand48 false true g

/-- The delegate `Delegate::Random`: every hook returns `GetStatus()`. Its
data is the state of the generator of the C library. -/
def Delegate.Random {γ : Type} (lrand48 : γ → Int × γ) : Delegate.Base γ :=
  { WillHandleEvent := fun _ _ => Delegate.Random.GetStatus lrand48
    DidHandleEvent := fun _ _ => Delegate.Random.GetStatus lrand48
    WillExitState := fun _ _ => Delegate.Random.GetStatus lrand48
    DidExitState := fun _ _ => Delegate.Random.GetStatus lrand48
    WillTransition := fun _ _ => Delegate.Random.GetStatus lrand48
    DidTransition := fun _ _ => Delegate.Random.GetStatus lrand48
    WillEnterState := fun _ _ => Delegate.Random.GetStatus lrand48
    DidEnterState := fun _ _ => Delegate.Random.GetStatus lrand48 }

/-- The constructor `Random::Random(inSeed)`: `srand48(inSeed)` sets the
state of the generator. -/
def Delegate.Random.create {γ : Type} (srand48 : Nat → γ) (inSeed : Nat) : γ :=
  srand48 inSeed

/-- The constructor `Boolean::Boolean(inBoolean)`: the data member
`mBoolean` is set to `inBoolean`. -/
def Delegate.Boolean.create (inBoolean : Bool) : Bool :=
  inBoolean

/-- A sample generator state transition, the linear congruential step that
POSIX gives for `lrand48`: the draw is the upper 31 bits of the new 48-bit
state. -/
def sampleLrand48 (g : Nat) : Int × Nat :=
  let next := (25214903917 * g + 11) % 2 ^ 48
  (((next / 2 ^ 17 : Nat) : Int), next)

/-- A sample seeding, the one POSIX gives for `srand48`. -/
def sampleSrand48 (inSeed : Nat) : Nat :=
  (inSeed % 2 ^ 32) * 2 ^ 16 + 13070

/-! ## Calling hooks by name -/

/-- A call of the hook `h` of a delegate, as the test makes through a
pointer to member: the two event reception hooks get the state `s`, the other
six the transition `t`. -/
def Delegate.Base.call (dg : Delegate.Base δ) (h : Hook) (e : Event) (s : State)
    (t : Transition) : δ → Bool × δ :=
  match h with
  | Hook.WillHandleEvent => dg.WillHandleEvent e s
  | Hook.DidHandleEvent => dg.DidHandleEvent e s
  | Hook.WillExitState => dg.WillExitState e t
  | Hook.DidExitState => dg.DidExitState e t
  | Hook.WillTransition => dg.WillTransition e t
  | Hook.DidTransition => dg.DidTransition e t
  | Hook.WillEnterState => dg.WillEnterState e t
  | Hook.DidEnterState => dg.DidEnterState e t

/-- A sequence of hook calls on one delegate object: the verdicts in order,
and the data of the delegate at the end. -/
def Delegate.Base.callAll (dg : Delegate.Base δ) :
    List (Hook × Event × State × Transition) → δ → List Bool × δ
  | [], x => ([], x)
  | (h, e, s, t) :: rest, x =>
    let r := dg.call h e s t x
    let p := Delegate.Base.callAll dg rest r.2
    (r.1 :: p.1, p.2)

/-- The number of `SetCurrentState` calls in a log. -/
def setCount : List Effect → Nat
  | [] => 0
  | Effect.call _ _ _ _ _ :: l => setCount l
  | Effect.setCurrentState _ :: l => setCount l + 1

/-- The arcs of a table: `b` is the end of an entry that starts in `a`. -/
def arc (T : List Transition) (a b : State) : Prop :=
  ∃ t ∈ T, t.mStart = a ∧ t.mEnd = b

/-- A test delegate without data whose hook `DidHandleEvent` returns `true`
exactly when the state it is handed is `0`, and whose other hooks return
`true`. -/
def Delegate.DidAtZero : Delegate.Base Unit :=
  { WillHandleEvent := fun _ _ u => (true, u)
    DidHandleEvent := fun _ s u => (decide (s = 0), u)
    WillExitState := fun _ _ u => (true, u)
    DidExitState := fun _ _ u => (true, u)
    WillTransition := fun _ _ u => (true, u)
    DidTransition := fun _ _ u => (true, u)
    WillEnterState := fun _ _ u => (true, u)
    DidEnterState := fun _ _ u => (true, u) }

/-- The hooks invoked in a log, each with the state or transition it was
handed, in program order. -/
def hookArguments : List Effect → List (Hook × HookArg)
  | [] => []
  | Effect.call h _ arg _ _ :: l => (h, arg) :: hookArguments l
  | Effect.setCurrentState _ :: l => hookArguments l

/-- The hooks invoked in a log, each with the event and the state or
transition it was handed, in program order. -/
def hookCalls : List Effect → List (Hook × Event × HookArg)
  | [] => []
  | Effect.call h e arg _ _ :: l => (h, e, arg) :: hookCalls l
  | Effect.setCurrentState _ :: l => hookCalls l

/-- The loop of `Machine::FindTransition` with a record of its reads: the
recursion of `Machine.FindTransition.loop`, returning besides its result the
offsets from `mFirstTransition` at which `theFinder` was evaluated, in the
order of evaluation. -/
def Machine.FindTransition.loopTraced (m : Machine) (theFinder : Transition → Bool) :
    (remaining : Nat) → (start : Nat) → Found × List Nat
  | 0, _ => (Found.null, [])
  | remaining + 1, start =>
    match m.read start with
    | none => (Found.fault, [start])
    | some t =>
      if theFinder t then (Found.entry start t, [start])
      else
        let r := Machine.FindTransition.loopTraced m theFinder remaining (start + 1)
        (r.1, start :: r.2)

/-- The offsets at which a call of `Machine::FindTransition` evaluates the
predicate, in the order of evaluation. -/
def Machine.FindTransition.probes (m : Machine) (inState : State) (inEvent : Event) :
    List Nat :=
  (Machine.FindTransition.loopTraced m (FindTransitionPredicate inState inEvent)
    m.mCount 0).2

/-! ## The table scan -/

/-- The scan returns the pointer to entry `i` when `i` lies in the scanned
window, passes the predicate, and every earlier entry of the window exists
and fails it. -/
theorem Machine.FindTransition.loop_entry (m : Machine) (p : Transition → Bool)
    (i : Nat) (t : Transition) (hi : m.read i = some t) (hp : p t = true) :
    ∀ (n start : Nat), start ≤ i → i < start + n →
      (∀ j, start ≤ j → j < i → ∃ u, m.read j = some u ∧ p u = false) →
      Machine.FindTransition.loop m p n start = Found.entry i t := by
  intro n
  induction n with
  | zero => intro start h1 h2; omega
  | succ n ih =>
    intro start h1 h2 h
    by_cases hs : start = i
    · subst hs
      rw [Machine.FindTransition.loop, hi]
      simp [hp]
    · obtain ⟨u, hu, hpu⟩ := h start (le_refl _) (by omega)
      have hrest := ih (start + 1) (by omega) (by omega)
        (fun j h3 h4 => h j (by omega) h4)
      rw [Machine.FindTransition.loop, hu]
      simp [hpu, hrest]

/-- Reading a machine bound to the whole of `T`. -/
theorem Machine.read_create (T : List Transition) (n : Nat) (c : State) (i : Nat) :
    (Machine.create (some T) n c).read i = T.get? i := rfl

/-- The predicate as a proposition. -/
theorem FindTransitionPredicate_iff (s : State) (e : Event) (t : Transition) :
    FindTransitionPredicate s e t = true ↔ t.mStart = s ∧ t.mEvent = e := by
  unfold FindTransitionPredicate
  rw [Bool.and_eq_true, beq_iff_eq, beq_iff_eq]
  constructor
  · rintro ⟨h1, h2⟩; exact ⟨h1.symm, h2.symm⟩
  · rintro ⟨h1, h2⟩; exact ⟨h1.symm, h2.symm⟩

/-- On a machine bound to the whole of `T`, the scan returns the least
index whose entry passes the predicate, when there is one. -/
theorem Machine.FindTransition.loop_least (T : List Transition) (c : State)
    (p : Transition → Bool) (h : ∃ t ∈ T, p t = true) :
    ∃ (i : Nat) (t : Transition), T.get? i = some t ∧ p t = true ∧
      (∀ (j : Nat) (u : Transition), T.get? j = some u → p u = true → i ≤ j) ∧
      Machine.FindTransition.loop (Machine.create (some T) T.length c) p T.length 0
        = Found.entry i t := by
  classical
  have hex : ∃ j, ∃ u, T.get? j = some u ∧ p u = true := by
    obtain ⟨t, ht, hp⟩ := h
    obtain ⟨j, hj⟩ := List.get?_of_mem ht
    exact ⟨j, t, hj, hp⟩
  obtain ⟨t, hit, hpt⟩ := Nat.find_spec hex
  have hlt : Nat.find hex < T.length := by
    by_contra hge
    rw [List.get?_eq_none.mpr (Nat.le_of_not_lt hge)] at hit
    exact Option.noConfusion hit
  have hmin : ∀ (j : Nat) (u : Transition), T.get? j = some u → p u = true →
      Nat.find hex ≤ j := fun j u hj hu => Nat.find_min' hex ⟨u, hj, hu⟩
  refine ⟨Nat.find hex, t, hit, hpt, hmin, ?_⟩
  apply Machine.FindTransition.loop_entry _ p (Nat.find hex) t
    (by rw [Machine.read_create]; exact hit) hpt T.length 0 (Nat.zero_le _) (by omega)
  intro j _ hj
  have hjl : j < T.length := lt_trans hj hlt
  refine ⟨T.get ⟨j, hjl⟩, by rw [Machine.read_create]; exact List.get?_eq_get hjl, ?_⟩
  by_contra hne
  have := hmin j (T.get ⟨j, hjl⟩) (List.get?_eq_get hjl) (by simpa using hne)
  omega

/-- The scan over the window `l` of the table `pre ++ l ++ post` is
`List.find?` on `l`, with the offset of the entry found. -/
theorem Machine.FindTransition.loop_eq_find (m : Machine) (p : Transition → Bool)
    (post : List Transition) :
    ∀ (l pre : List Transition), m.mFirstTransition = some (pre ++ l ++ post) →
      Machine.FindTransition.loop m p l.length pre.length =
        match l.find? p with
        | none => Found.null
        | some t => Found.entry (pre.length + l.findIdx p) t := by
  intro l
  induction l with
  | nil => intro pre _; rfl
  | cons a l ih =>
    intro pre hm
    have hread : m.read pre.length = some a := by
      simp only [Machine.read, hm, List.append_assoc, List.cons_append]
      rw [List.get?_eq_getElem?, List.getElem?_append_right (le_refl _)]
      simp
    have hm2 : m.mFirstTransition = some ((pre ++ [a]) ++ l ++ post) := by
      rw [hm]; simp
    have hrest := ih (pre ++ [a]) hm2
    rw [List.length_cons, Machine.FindTransition.loop, hread]
    by_cases hp : p a = true
    · simp [hp, List.find?_cons, List.findIdx_cons]
    · have hp2 : p a = false := by simpa using hp
      simp only [hp2, List.find?_cons, List.findIdx_cons, cond_false]
      rw [List.length_append, List.length_singleton] at hrest
      rw [hrest]
      cases l.find? p with
      | none => simp
      | some t => simp; omega

/-! ## Claims about `Machine::FindTransition` -/

/-- C1: `FindTransition` is first-match. For every table `T`, state `s` and
event `e`, if some entry of `T` has `(mStart, mEvent) = (s, e)`, then
`FindTransition(s, e)` returns the pointer to the entry at the least index
`i` with `T[i].mStart = s` and `T[i].mEvent = e`; so of two entries with the
same `(start, event)` the earlier one in table order is returned. -/
theorem FindTransition_first_match (T : List Transition) (c s : State) (e : Event)
    (h : ∃ t ∈ T, t.mStart = s ∧ t.mEvent = e) :
    ∃ (i : Nat) (t : Transition), T.get? i = some t ∧
      (Machine.create (some T) T.length c).FindTransition s e = Found.entry i t ∧
      t.mStart = s ∧ t.mEvent = e ∧
      ∀ (j : Nat) (u : Transition), T.get? j = some u → u.mStart = s → u.mEvent = e →
        i ≤ j := by
  obtain ⟨t0, ht0, hm0⟩ := h
  obtain ⟨i, t, hit, hpt, hmin, hres⟩ :=
    Machine.FindTransition.loop_least T c (FindTransitionPredicate s e)
      ⟨t0, ht0, (FindTransitionPredicate_iff s e t0).mpr hm0⟩
  have hm := (FindTransitionPredicate_iff s e t).mp hpt
  exact ⟨i, t, hit, hres, hm.1, hm.2,
    fun j u hj h1 h2 => hmin j u hj ((FindTransitionPredicate_iff s e u).mpr ⟨h1, h2⟩)⟩

/-- Witness of C1 on a table with a duplicated `(start, event)` pair and
two different destinations. -/
theorem FindTransition_first_match_witness :
    (∃ t ∈ duplicateTable, t.mStart = 0 ∧ t.mEvent = 0) ∧
    ∃ (i : Nat) (t : Transition), duplicateTable.get? i = some t ∧
      (Machine.create (some duplicateTable) duplicateTable.length 0).FindTransition 0 0
        = Found.entry i t ∧
      t.mStart = 0 ∧ t.mEvent = 0 ∧
      ∀ (j : Nat) (u : Transition), duplicateTable.get? j = some u →
        u.mStart = 0 → u.mEvent = 0 → i ≤ j :=
  ⟨⟨Transition.mk 0 0 1, by decide, rfl, rfl⟩,
   FindTransition_first_match duplicateTable 0 0 0 ⟨Transition.mk 0 0 1, by decide, rfl, rfl⟩⟩

/-- On a machine bound to the whole of `T`, `FindTransition` is `List.find?`
with the table offset of the entry found. -/
theorem FindTransition_ofTable (T : List Transition) (c s : State) (e : Event) :
    (Machine.create (some T) T.length c).FindTransition s e =
      match T.find? (FindTransitionPredicate s e) with
      | none => Found.null
      | some t => Found.entry (T.findIdx (FindTransitionPredicate s e)) t := by
  have h := Machine.FindTransition.loop_eq_find (Machine.create (some T) T.length c)
    (FindTransitionPredicate s e) [] T [] (by simp [Machine.create, Machine.SetTransitions])
  simpa [Machine.FindTransition, Machine.create, Machine.SetTransitions] using h

/-- With a machine bound, `HandleEvent(inEvent)` looks the transition up from
the machine's current state and runs the pipeline on the entry found. -/
theorem HandleEvent_ofTable (d : Driver δ) (hd : d.mMachine = true) (T : List Transition)
    (c : State) (x : δ) (log : List Effect) (e : Event) :
    d.HandleEvent e (World.ofTable T c x log) =
      match T.find? (FindTransitionPredicate c e) with
      | none => some (false, World.ofTable T c x log)
      | some t => some (d.HandleEventTransition e StateRef.current t
          (World.ofTable T c x log)) := by
  have h := FindTransition_ofTable T c c e
  simp only [Driver.HandleEvent, Driver.HandleEventState, hd, World.ofTable,
    Machine.GetCurrentState, StateRef.read] at h ⊢
  simp only [Machine.create, Machine.SetTransitions] at h ⊢
  rw [h]
  cases T.find? (FindTransitionPredicate c e) <;> simp

/-- The log after a hook invocation. -/
theorem World.invoke_log (w : World δ) (h : Hook) (e : Event) (a : HookArg)
    (f : δ → Bool × δ) :
    (w.invoke h e a f).2.log
      = w.log ++ [Effect.call h e a w.machine.GetCurrentState (w.invoke h e a f).1] := rfl

/-- A hook invocation leaves the machine alone. -/
theorem World.invoke_machine (w : World δ) (h : Hook) (e : Event) (a : HookArg)
    (f : δ → Bool × δ) : (w.invoke h e a f).2.machine = w.machine := rfl

/-- The log after `SetCurrentState`. -/
theorem World.SetCurrentState_log (w : World δ) (s : State) :
    (w.SetCurrentState s).log = w.log ++ [Effect.setCurrentState s] := rfl

/-- The machine after `SetCurrentState`. -/
theorem World.SetCurrentState_machine (w : World δ) (s : State) :
    (w.SetCurrentState s).machine = w.machine.SetCurrentState s := rfl

/-- What a hook invocation does to the world. -/
theorem World.invoke_spec (w : World δ) (h : Hook) (e : Event) (a : HookArg)
    (f : δ → Bool × δ) :
    ∃ (b : Bool) (w' : World δ), w.invoke h e a f = (b, w') ∧
      w'.log = w.log ++ [Effect.call h e a w.machine.GetCurrentState b] ∧
      w'.machine = w.machine :=
  ⟨_, _, rfl, rfl, rfl⟩

/-- Every pass of the pipeline stops after the hook at some position `k` of
`Driver.pipeline`: the hooks before it returned `true`, the hook at `k`
returned the status of the pass, and the machine was written exactly when
`k` lies after `WillEnterState`. -/
theorem HandleEventTransition_shape (d : Driver δ) (dg : Delegate.Base δ)
    (hm : d.mMachine = true) (hdg : d.mDelegate = some dg)
    (e : Event) (s : StateRef) (t : Transition) (w : World δ) :
    ∃ (k : Nat), k < 8 ∧
      (d.HandleEventTransition e s t w).2.log
        = w.log ++ Driver.passLog e (s.read w.machine)
            (s.read (w.machine.SetCurrentState t.mEnd)) t w.machine.GetCurrentState k
            (d.HandleEventTransition e s t w).1 ∧
      (k < 7 → (d.HandleEventTransition e s t w).1 = false) ∧
      (d.HandleEventTransition e s t w).2.machine =
        (if k < 6 then w.machine else w.machine.SetCurrentState t.mEnd) := by
  generalize hr : d.HandleEventTransition e s t w = r
  simp only [Driver.HandleEventTransition, hm, hdg, Bool.true_eq_false, if_false] at hr
  obtain ⟨b1, w1, e1, l1, m1⟩ :=
    World.invoke_spec w Hook.WillHandleEvent e
      (HookArg.state (s.read w.machine)) (dg.WillHandleEvent e (s.read w.machine))
  rw [e1] at hr
  cases b1
  · simp only [Bool.false_eq_true, if_false] at hr
    subst hr
    exact ⟨0, by simp [Driver.passLog, Machine.GetCurrentState, Machine.SetCurrentState,
      World.SetCurrentState_log, World.SetCurrentState_machine, l1, m1]⟩
  simp only [if_true] at hr
  obtain ⟨b2, w2, e2, l2, m2⟩ :=
    World.invoke_spec w1 Hook.WillExitState e
      (HookArg.transition t) (dg.WillExitState e t)
  rw [e2] at hr
  cases b2
  · simp only [Bool.false_eq_true, if_false] at hr
    subst hr
    exact ⟨1, by simp [Driver.passLog, Machine.GetCurrentState, Machine.SetCurrentState,
      World.SetCurrentState_log, World.SetCurrentState_machine, l1, m1, l2, m2]⟩
  simp only [if_true] at hr
  obtain ⟨b3, w3, e3, l3, m3⟩ :=
    World.invoke_spec w2 Hook.DidExitState e
      (HookArg.transition t) (dg.DidExitState e t)
  rw [e3] at hr
  cases b3
  · simp only [Bool.false_eq_true, if_false] at hr
    subst hr
    exact ⟨2, by simp [Driver.passLog, Machine.GetCurrentState, Machine.SetCurrentState,
      World.SetCurrentState_log, World.SetCurrentState_machine, l1, m1, l2, m2, l3, m3]⟩
  simp only [if_true] at hr
  obtain ⟨b4, w4, e4, l4, m4⟩ :=
    World.invoke_spec w3 Hook.WillTransition e
      (HookArg.transition t) (dg.WillTransition e t)
  rw [e4] at hr
  cases b4
  · simp only [Bool.false_eq_true, if_false] at hr
    subst hr
    exact ⟨3, by simp [Driver.passLog, Machine.GetCurrentState, Machine.SetCurrentState,
      World.SetCurrentState_log, World.SetCurrentState_machine, l1, m1, l2, m2, l3, m3, l4, m4]⟩
  simp only [if_true] at hr
  obtain ⟨b5, w5, e5, l5, m5⟩ :=
    World.invoke_spec w4 Hook.DidTransition e
      (HookArg.transition t) (dg.DidTransition e t)
  rw [e5] at hr
  cases b5
  · simp only [Bool.false_eq_true, if_false] at hr
    subst hr
    exact ⟨4, by simp [Driver.passLog, Machine.GetCurrentState, Machine.SetCurrentState,
      World.SetCurrentState_log, World.SetCurrentState_machine, l1, m1, l2, m2, l3, m3, l4, m4,
      l5, m5]⟩
  simp only [if_true] at hr
  obtain ⟨b6, w6, e6, l6, m6⟩ :=
    World.invoke_spec w5 Hook.WillEnterState e
      (HookArg.transition t) (dg.WillEnterState e t)
  rw [e6] at hr
  cases b6
  · simp only [Bool.false_eq_true, if_false] at hr
    subst hr
    exact ⟨5, by simp [Driver.passLog, Machine.GetCurrentState, Machine.SetCurrentState,
      World.SetCurrentState_log, World.SetCurrentState_machine, l1, m1, l2, m2, l3, m3, l4, m4,
      l5, m5, l6, m6]⟩
  simp only [if_true] at hr
  obtain ⟨b7, w7, e7, l7, m7⟩ :=
    World.invoke_spec (w6.SetCurrentState t.mEnd) Hook.DidEnterState e
      (HookArg.transition t) (dg.DidEnterState e t)
  rw [e7] at hr
  cases b7
  · simp only [Bool.false_eq_true, if_false] at hr
    subst hr
    exact ⟨6, by simp [Driver.passLog, Machine.GetCurrentState, Machine.SetCurrentState,
      World.SetCurrentState_log, World.SetCurrentState_machine, l1, m1, l2, m2, l3, m3, l4, m4,
      l5, m5, l6, m6, l7, m7]⟩
  simp only [if_true] at hr
  obtain ⟨b8, w8, e8, l8, m8⟩ :=
    World.invoke_spec w7 Hook.DidHandleEvent e
      (HookArg.state (s.read w7.machine)) (dg.DidHandleEvent e (s.read w7.machine))
  rw [e8] at hr
  subst hr
  exact ⟨7, by simp [Driver.passLog, Machine.GetCurrentState, Machine.SetCurrentState,
      World.SetCurrentState_log, World.SetCurrentState_machine, l1, m1, l2, m2, l3, m3, l4, m4,
      l5, m5, l6, m6, l7, m7, l8, m8]⟩


/-- The verdict of a hook invocation is the verdict of the method. -/
theorem World.invoke_fst (w : World δ) (h : Hook) (e : Event) (a : HookArg)
    (f : δ → Bool × δ) : (w.invoke h e a f).1 = (f w.delegate).1 := rfl

/-- With a delegate whose hooks all return `true`, a pass runs through all
eight hooks. -/
theorem HandleEventTransition_always_true (d : Driver δ) (dg : Delegate.Base δ)
    (hm : d.mMachine = true) (hdg : d.mDelegate = some dg) (htrue : dg.AlwaysReturns true)
    (e : Event) (s : StateRef) (t : Transition) (w : World δ) :
    (d.HandleEventTransition e s t w).1 = true ∧
    (d.HandleEventTransition e s t w).2.log
      = w.log ++ Driver.passLog e (s.read w.machine)
          (s.read (w.machine.SetCurrentState t.mEnd)) t w.machine.GetCurrentState 7 true ∧
    (d.HandleEventTransition e s t w).2.machine = w.machine.SetCurrentState t.mEnd := by
  obtain ⟨h1, h2, h3, h4, h5, h6, h7, h8⟩ := htrue
  simp only [Driver.HandleEventTransition, hm, hdg, Bool.true_eq_false, if_false,
    World.invoke_fst, h1, h2, h3, h4, h5, h6, h7, h8, if_true]
  simp [Driver.passLog, Machine.GetCurrentState, Machine.SetCurrentState,
    World.invoke_log, World.invoke_machine, World.SetCurrentState_log,
    World.SetCurrentState_machine, World.invoke_fst, h1, h2, h3, h4, h5, h6, h7, h8]

/-- With a delegate whose hooks all return `false`, a pass stops after
`WillHandleEvent`. -/
theorem HandleEventTransition_always_false (d : Driver δ) (dg : Delegate.Base δ)
    (hm : d.mMachine = true) (hdg : d.mDelegate = some dg) (hfalse : dg.AlwaysReturns false)
    (e : Event) (s : StateRef) (t : Transition) (w : World δ) :
    (d.HandleEventTransition e s t w).1 = false ∧
    (d.HandleEventTransition e s t w).2.log
      = w.log ++ Driver.passLog e (s.read w.machine)
          (s.read (w.machine.SetCurrentState t.mEnd)) t w.machine.GetCurrentState 0 false ∧
    (d.HandleEventTransition e s t w).2.machine = w.machine := by
  obtain ⟨h1, h2, h3, h4, h5, h6, h7, h8⟩ := hfalse
  simp only [Driver.HandleEventTransition, hm, hdg, Bool.true_eq_false, if_false,
    World.invoke_fst, h1, h2, h3, h4, h5, h6, h7, h8, if_true, Bool.false_eq_true]
  simp [Driver.passLog, Machine.GetCurrentState, Machine.SetCurrentState,
    World.invoke_log, World.invoke_machine, World.SetCurrentState_log,
    World.SetCurrentState_machine, World.invoke_fst, h1, h2, h3, h4, h5, h6, h7, h8]


/-- The predicate object decides `(mStart, mEvent) = (s, e)`. -/
theorem FindTransitionPredicate_eq_decide (s : State) (e : Event) :
    FindTransitionPredicate s e = fun u => decide (u.mStart = s ∧ u.mEvent = e) := by
  funext u
  rw [Bool.eq_iff_iff, FindTransitionPredicate_iff]
  simp

/-- There is a first match exactly when some entry matches. -/
theorem firstMatch_eq_none_iff (T : List Transition) (s : State) (e : Event) :
    firstMatch T s e = none ↔ ∀ t ∈ T, ¬ (t.mStart = s ∧ t.mEvent = e) := by
  simp [firstMatch, List.find?_eq_none]

/-- A first match is an entry that matches. -/
theorem firstMatch_some (T : List Transition) (s : State) (e : Event) (t : Transition)
    (h : firstMatch T s e = some t) : t ∈ T ∧ t.mStart = s ∧ t.mEvent = e := by
  have h1 := List.mem_of_find?_eq_some h
  have h2 := List.find?_some h
  exact ⟨h1, by simpa using h2⟩

/-- The possible outcomes of `HandleEvent(e)` for a driver bound to a machine
over the whole of `T` sitting in state `c` and to the delegate `dg`. -/
theorem HandleEvent_outcome (dg : Delegate.Base δ) (T : List Transition) (c : State)
    (x : δ) (log : List Effect) (e : Event) :
    (firstMatch T c e = none ∧
      (Driver.create (some dg)).HandleEvent e (World.ofTable T c x log)
        = some (false, World.ofTable T c x log)) ∨
    (∃ (t : Transition) (k : Nat) (b : Bool) (w' : World δ),
      firstMatch T c e = some t ∧ k < 8 ∧
      (Driver.create (some dg)).HandleEvent e (World.ofTable T c x log) = some (b, w') ∧
      w'.log = log ++ Driver.passLog e c t.mEnd t c k b ∧
      (k < 7 → b = false) ∧
      w'.machine = (if k < 6 then Machine.create (some T) T.length c
        else (Machine.create (some T) T.length c).SetCurrentState t.mEnd)) := by
  have hrun := HandleEvent_ofTable (Driver.create (some dg)) rfl T c x log e
  rw [FindTransitionPredicate_eq_decide] at hrun
  change _ = match firstMatch T c e with
    | none => _
    | some t => _ at hrun
  cases hfm : firstMatch T c e with
  | none =>
    rw [hfm] at hrun
    exact Or.inl ⟨rfl, hrun⟩
  | some t =>
    rw [hfm] at hrun
    obtain ⟨k, hk, hlog, hveto, hmach⟩ := HandleEventTransition_shape
      (Driver.create (some dg)) dg rfl rfl e StateRef.current t (World.ofTable T c x log)
    exact Or.inr ⟨t, k, _, _, rfl, hk, hrun, hlog, hveto, hmach⟩


/-- The hooks and verdicts recorded in the log of a pass. -/
theorem hookResults_passLog (e : Event) (s0 s1 : State) (t : Transition) (c : State)
    (k : Nat) (hk : k < 8) (b : Bool) :
    hookResults (Driver.passLog e s0 s1 t c k b) = Driver.passResults k b := by
  interval_cases k <;> rfl

/-- The outcomes of `HandleEvent(e)` with the log of the call named: either
nothing matches and the world is untouched, or the pass on the first match
`t` stopped after position `k` with status `b`. -/
theorem HandleEvent_run (dg : Delegate.Base δ) (T : List Transition) (c : State)
    (x : δ) (log : List Effect) (e : Event) :
    ∃ (b : Bool) (w' : World δ) (delta : List Effect),
      (Driver.create (some dg)).HandleEvent e (World.ofTable T c x log) = some (b, w') ∧
      w'.log = log ++ delta ∧
      ((firstMatch T c e = none ∧ b = false ∧ delta = [] ∧
          w'.machine = Machine.create (some T) T.length c) ∨
       (∃ (t : Transition) (k : Nat), firstMatch T c e = some t ∧ k < 8 ∧
          delta = Driver.passLog e c t.mEnd t c k b ∧
          hookResults delta = Driver.passResults k b ∧
          (k < 7 → b = false) ∧
          w'.machine = (if k < 6 then Machine.create (some T) T.length c
            else (Machine.create (some T) T.length c).SetCurrentState t.mEnd))) := by
  rcases HandleEvent_outcome dg T c x log e with ⟨hnone, hrun⟩ |
    ⟨t, k, b, w', hsome, hk, hrun, hlog, hveto, hmach⟩
  · exact ⟨false, _, [], hrun, by simp [World.ofTable], Or.inl ⟨hnone, rfl, rfl, rfl⟩⟩
  · exact ⟨b, w', _, hrun, hlog,
      Or.inr ⟨t, k, hsome, hk, rfl, hookResults_passLog e c t.mEnd t c k hk b, hveto, hmach⟩⟩

/-! ## Claims about `Driver::HandleEvent` -/

/-- C2: unhandled event. For every table `T`, machine state `s` and event
`e` such that no entry of `T` has `(mStart, mEvent) = (s, e)`, and for every
driver (any delegate, or none), `FindTransition(s, e)` returns `NULL` and
`HandleEvent(e)` on the machine sitting in `s` returns `false` and leaves the
world as it was: no hook is logged, and the machine's current state is still
`s`. -/
theorem HandleEvent_unhandled (T : List Transition) (s c : State) (e : Event)
    (d : Driver δ) (x : δ) (log : List Effect)
    (h : ∀ t ∈ T, ¬ (t.mStart = s ∧ t.mEvent = e)) :
    (Machine.create (some T) T.length c).FindTransition s e = Found.null ∧
    d.HandleEvent e (World.ofTable T s x log) = some (false, World.ofTable T s x log) ∧
    (World.ofTable T s x log).machine.GetCurrentState = s := by
  have hfind : ∀ c', (Machine.create (some T) T.length c').FindTransition s e
      = Found.null := by
    intro c'
    rw [FindTransition_ofTable, FindTransitionPredicate_eq_decide]
    have hnone := (firstMatch_eq_none_iff T s e).mpr h
    unfold firstMatch at hnone
    rw [hnone]
  refine ⟨hfind c, ?_, rfl⟩
  by_cases hd : d.mMachine = true
  · rw [HandleEvent_ofTable d hd, FindTransitionPredicate_eq_decide]
    have hnone := (firstMatch_eq_none_iff T s e).mpr h
    unfold firstMatch at hnone
    rw [hnone]
  · have hd2 : d.mMachine = false := by simpa using hd
    simp [Driver.HandleEvent, hd2]

/-- Witness of C2: state `1` has no arc in the single-arc table. -/
theorem HandleEvent_unhandled_witness :
    (∀ t ∈ singleTable, ¬ (t.mStart = 1 ∧ t.mEvent = 0)) ∧
    (Machine.create (some singleTable) singleTable.length 0).FindTransition 1 0
      = Found.null ∧
    (Driver.create (some Delegate.Boolean)).HandleEvent 0 (World.ofTable singleTable 1 true [])
      = some (false, World.ofTable singleTable 1 true []) ∧
    (World.ofTable singleTable 1 true []).machine.GetCurrentState = 1 :=
  ⟨by decide,
   HandleEvent_unhandled singleTable 1 0 0 (Driver.create (some Delegate.Boolean)) true []
    (by decide)⟩

/-- C3: with a delegate whose eight hooks all always return `true`, for every
table `T`, current state `s` and event `e` such that `t` is the first entry
of `T` matching `(s, e)`, `HandleEvent(e)` returns `true` and afterwards the
machine's current state is `t.mEnd`. -/
theorem HandleEvent_always_true (T : List Transition) (s : State) (e : Event)
    (dg : Delegate.Base δ) (x : δ) (log : List Effect) (t : Transition)
    (hdg : dg.AlwaysReturns true) (ht : firstMatch T s e = some t) :
    ∃ w' : World δ,
      (Driver.create (some dg)).HandleEvent e (World.ofTable T s x log) = some (true, w') ∧
      w'.machine.GetCurrentState = t.mEnd := by
  have hrun := HandleEvent_ofTable (Driver.create (some dg)) rfl T s x log e
  rw [FindTransitionPredicate_eq_decide] at hrun
  unfold firstMatch at ht
  rw [ht] at hrun
  obtain ⟨h1, _, h3⟩ := HandleEventTransition_always_true (Driver.create (some dg)) dg rfl rfl
    hdg e StateRef.current t (World.ofTable T s x log)
  refine ⟨((Driver.create (some dg)).HandleEventTransition e StateRef.current t
    (World.ofTable T s x log)).2,
    ?_, ?_⟩
  · rw [hrun, ← h1]
  · rw [h3]; rfl

/-- Witness of C3: `Delegate::Always` on the duplicate table, where the first
of the two arcs from `(0, 0)` leads to `1`. -/
theorem HandleEvent_always_true_witness :
    Delegate.Base.AlwaysReturns Delegate.Always true ∧
    firstMatch duplicateTable 0 0 = some (Transition.mk 0 0 1) ∧
    ∃ w' : World Unit,
      (Driver.create (some Delegate.Always)).HandleEvent 0
        (World.ofTable duplicateTable 0 () []) = some (true, w') ∧
      w'.machine.GetCurrentState = (Transition.mk 0 0 1).mEnd :=
  ⟨by simp [Delegate.Base.AlwaysReturns, Delegate.Always], by decide,
   HandleEvent_always_true duplicateTable 0 0 Delegate.Always () [] (Transition.mk 0 0 1)
    (by simp [Delegate.Base.AlwaysReturns, Delegate.Always]) (by decide)⟩

/-- C4: with a delegate whose eight hooks all always return `false`, for
every table `T`, current state `s` and event `e`, matched or not,
`HandleEvent(e)` returns `false` and the machine is untouched, so its current
state is still `s`; when an entry matches, `WillHandleEvent` is the only hook
invoked in the call. -/
theorem HandleEvent_always_false (T : List Transition) (s : State) (e : Event)
    (dg : Delegate.Base δ) (x : δ) (log : List Effect) (hdg : dg.AlwaysReturns false) :
    ∃ (w' : World δ) (delta : List Effect),
      (Driver.create (some dg)).HandleEvent e (World.ofTable T s x log) = some (false, w') ∧
      w'.machine = (World.ofTable T s x log).machine ∧
      w'.machine.GetCurrentState = s ∧
      w'.log = log ++ delta ∧
      ((∃ t ∈ T, t.mStart = s ∧ t.mEvent = e) →
        hooksInvoked delta = [Hook.WillHandleEvent]) := by
  have hrun := HandleEvent_ofTable (Driver.create (some dg)) rfl T s x log e
  rw [FindTransitionPredicate_eq_decide] at hrun
  change _ = match firstMatch T s e with
    | none => _
    | some t => _ at hrun
  cases hfm : firstMatch T s e with
  | none =>
    rw [hfm] at hrun
    refine ⟨World.ofTable T s x log, [], hrun, rfl, rfl, by simp [World.ofTable], ?_⟩
    rintro ⟨t, ht, hmatch⟩
    exact absurd hmatch ((firstMatch_eq_none_iff T s e).mp hfm t ht)
  | some t =>
    rw [hfm] at hrun
    obtain ⟨h1, h2, h3⟩ := HandleEventTransition_always_false (Driver.create (some dg)) dg
      rfl rfl hdg e StateRef.current t (World.ofTable T s x log)
    refine ⟨_, _, ?_, h3, ?_, h2, fun _ => rfl⟩
    · rw [hrun, ← h1]
    · rw [h3]; rfl

/-- Witness of C4: `Delegate::Never` on the single-arc table, at the arc. -/
theorem HandleEvent_always_false_witness :
    Delegate.Base.AlwaysReturns Delegate.Never false ∧
    ∃ (w' : World Unit) (delta : List Effect),
      (Driver.create (some Delegate.Never)).HandleEvent 0 (World.ofTable singleTable 0 () [])
        = some (false, w') ∧
      w'.machine = (World.ofTable singleTable 0 () ([] : List Effect)).machine ∧
      w'.machine.GetCurrentState = 0 ∧
      w'.log = [] ++ delta ∧
      ((∃ t ∈ singleTable, t.mStart = 0 ∧ t.mEvent = 0) →
        hooksInvoked delta = [Hook.WillHandleEvent]) :=
  ⟨by simp [Delegate.Base.AlwaysReturns, Delegate.Never],
   HandleEvent_always_false singleTable 0 0 Delegate.Never () []
    (by simp [Delegate.Base.AlwaysReturns, Delegate.Never])⟩



/-- C5: for a driver with a machine and a delegate bound, and for every
table, current state and event, `HandleEvent(e)` returns `true` if and only
if some entry matches `(current state, e)` and every one of the eight hooks
was invoked during the call and returned `true` (and never `false`). -/
theorem HandleEvent_true_iff (T : List Transition) (s : State) (e : Event)
    (dg : Delegate.Base δ) (x : δ) (log : List Effect) :
    ∃ (b : Bool) (w' : World δ) (delta : List Effect),
      (Driver.create (some dg)).HandleEvent e (World.ofTable T s x log) = some (b, w') ∧
      w'.log = log ++ delta ∧
      (b = true ↔
        (∃ t ∈ T, t.mStart = s ∧ t.mEvent = e) ∧
        ∀ h : Hook, (h, true) ∈ hookResults delta ∧ (h, false) ∉ hookResults delta) := by
  obtain ⟨b, w', delta, hrun, hlog, hcase⟩ := HandleEvent_run dg T s x log e
  refine ⟨b, w', delta, hrun, hlog, ?_⟩
  rcases hcase with ⟨hnone, hb, _, _⟩ | ⟨t, k, hsome, hk, _, hres, hveto, _⟩
  · subst hb
    constructor
    · intro h; exact absurd h (by decide)
    · rintro ⟨⟨t, ht, hmatch⟩, _⟩
      exact absurd hmatch ((firstMatch_eq_none_iff T s e).mp hnone t ht)
  · have hfin : ∀ k < 8, ∀ b : Bool, (k < 7 → b = false) →
        (b = true ↔ ∀ h : Hook, (h, true) ∈ Driver.passResults k b ∧
          (h, false) ∉ Driver.passResults k b) := by
      intro k hk b
      interval_cases k <;> cases b <;> decide
    rw [hres]
    have hm := firstMatch_some T s e t hsome
    constructor
    · intro hb
      exact ⟨⟨t, hm⟩, (hfin k hk b hveto).mp hb⟩
    · rintro ⟨_, hall⟩
      exact (hfin k hk b hveto).mpr hall


/-- C6: short-circuit veto. In every `HandleEvent` call the hooks invoked are
a prefix of the fixed pipeline `WillHandleEvent, WillExitState, DidExitState,
WillTransition, DidTransition, WillEnterState, DidEnterState,
DidHandleEvent`; a hook that returns `false` is the last hook invoked in the
call and the call returns `false`; and when all eight hooks are invoked, the
first seven each returned `true`. -/
theorem HandleEvent_short_circuit (T : List Transition) (s : State) (e : Event)
    (dg : Delegate.Base δ) (x : δ) (log : List Effect) :
    ∃ (b : Bool) (w' : World δ) (delta : List Effect),
      (Driver.create (some dg)).HandleEvent e (World.ofTable T s x log) = some (b, w') ∧
      w'.log = log ++ delta ∧
      hooksInvoked delta <+: Driver.pipeline ∧
      (∀ (i : Nat) (h : Hook), (hookResults delta).get? i = some (h, false) →
        i + 1 = (hookResults delta).length ∧ b = false) ∧
      ((hooksInvoked delta).length = 8 →
        (hookResults delta).take 7 = (Driver.pipeline.take 7).map (fun h => (h, true))) := by
  obtain ⟨b, w', delta, hrun, hlog, hcase⟩ := HandleEvent_run dg T s x log e
  refine ⟨b, w', delta, hrun, hlog, ?_⟩
  rcases hcase with ⟨_, _, hdelta, _⟩ | ⟨t, k, _, hk, _, hres, hveto, _⟩
  · subst hdelta
    refine ⟨by simp [hooksInvoked, hookResults], ?_, ?_⟩
    · intro i h hi
      simp [hookResults] at hi
    · intro hlen
      simp [hooksInvoked, hookResults] at hlen
  · have hfin : ∀ k < 8, ∀ b : Bool, (k < 7 → b = false) →
        (Driver.passResults k b).map Prod.fst <+: Driver.pipeline ∧
        (∀ i < 8, ∀ h : Hook, (Driver.passResults k b).get? i = some (h, false) →
          i + 1 = (Driver.passResults k b).length ∧ b = false) ∧
        (Driver.passResults k b).length ≤ 8 ∧
        (((Driver.passResults k b).map Prod.fst).length = 8 →
          (Driver.passResults k b).take 7
            = (Driver.pipeline.take 7).map (fun h => (h, true))) := by
      intro k hk b
      interval_cases k <;> cases b <;> decide
    obtain ⟨h1, h2, h3, h4⟩ := hfin k hk b hveto
    unfold hooksInvoked
    rw [hres]
    refine ⟨h1, ?_, h4⟩
    intro i h hi
    have hi8 : i < 8 := by
      by_contra hge
      rw [List.get?_eq_none.mpr (by omega)] at hi
      exact Option.noConfusion hi
    exact h2 i hi8 h hi


/-- C7: commit point. For the matched transition `t`, if the six hooks
through `WillEnterState` all returned `true` in the call, then the machine's
current state has been set to `t.mEnd`, and `DidEnterState` is invoked right
after that write (it observes `t.mEnd`) and not before; so a veto by
`DidEnterState` or by `DidHandleEvent` makes `HandleEvent` return `false`
while the machine's current state is already `t.mEnd`. -/
theorem HandleEvent_commit_point (T : List Transition) (s : State) (e : Event)
    (dg : Delegate.Base δ) (x : δ) (log : List Effect) (t : Transition)
    (ht : firstMatch T s e = some t) :
    ∃ (b : Bool) (w' : World δ) (delta : List Effect),
      (Driver.create (some dg)).HandleEvent e (World.ofTable T s x log) = some (b, w') ∧
      w'.log = log ++ delta ∧
      ((∀ h ∈ [Hook.WillHandleEvent, Hook.WillExitState, Hook.DidExitState,
            Hook.WillTransition, Hook.DidTransition, Hook.WillEnterState],
          (h, true) ∈ hookResults delta) →
        w'.machine.GetCurrentState = t.mEnd ∧
        (∃ (pre post : List Effect) (b7 : Bool),
          delta = pre ++ Effect.setCurrentState t.mEnd ::
            Effect.call Hook.DidEnterState e (HookArg.transition t) t.mEnd b7 :: post ∧
          hooksInvoked pre = [Hook.WillHandleEvent, Hook.WillExitState, Hook.DidExitState,
            Hook.WillTransition, Hook.DidTransition, Hook.WillEnterState]) ∧
        (((Hook.DidEnterState, false) ∈ hookResults delta ∨
            (Hook.DidHandleEvent, false) ∈ hookResults delta) →
          b = false ∧ w'.machine.GetCurrentState = t.mEnd)) := by
  obtain ⟨b, w', delta, hrun, hlog, hcase⟩ := HandleEvent_run dg T s x log e
  refine ⟨b, w', delta, hrun, hlog, ?_⟩
  rcases hcase with ⟨hnone, _, _, _⟩ | ⟨t', k, hsome, hk, hdelta, hres, hveto, hmach⟩
  · rw [ht] at hnone
    exact Option.noConfusion hnone
  · rw [ht] at hsome
    cases hsome
    rw [hres]
    intro hsix
    have hfin : ∀ k < 8, ∀ b : Bool, (k < 7 → b = false) →
        (∀ h ∈ [Hook.WillHandleEvent, Hook.WillExitState, Hook.DidExitState,
            Hook.WillTransition, Hook.DidTransition, Hook.WillEnterState],
          (h, true) ∈ Driver.passResults k b) →
        (k = 6 ∨ k = 7) ∧
        (((Hook.DidEnterState, false) ∈ Driver.passResults k b ∨
            (Hook.DidHandleEvent, false) ∈ Driver.passResults k b) → b = false) := by
      intro k hk b
      interval_cases k <;> cases b <;> decide
    obtain ⟨hk67, hfalse⟩ := hfin k hk b hveto hsix
    have hstate : w'.machine.GetCurrentState = t.mEnd := by
      rw [hmach]
      rcases hk67 with rfl | rfl <;> rfl
    refine ⟨hstate, ?_, fun hv => ⟨hfalse hv, hstate⟩⟩
    rw [hdelta]
    rcases hk67 with rfl | rfl
    · exact ⟨[Effect.call Hook.WillHandleEvent e (HookArg.state s) s true,
        Effect.call Hook.WillExitState e (HookArg.transition t) s true,
        Effect.call Hook.DidExitState e (HookArg.transition t) s true,
        Effect.call Hook.WillTransition e (HookArg.transition t) s true,
        Effect.call Hook.DidTransition e (HookArg.transition t) s true,
        Effect.call Hook.WillEnterState e (HookArg.transition t) s true],
        [], b, rfl, rfl⟩
    · exact ⟨[Effect.call Hook.WillHandleEvent e (HookArg.state s) s true,
        Effect.call Hook.WillExitState e (HookArg.transition t) s true,
        Effect.call Hook.DidExitState e (HookArg.transition t) s true,
        Effect.call Hook.WillTransition e (HookArg.transition t) s true,
        Effect.call Hook.DidTransition e (HookArg.transition t) s true,
        Effect.call Hook.WillEnterState e (HookArg.transition t) s true],
        [Effect.call Hook.DidHandleEvent e (HookArg.state t.mEnd) t.mEnd b], true, rfl, rfl⟩

/-- Witness of C7: on the single-arc table, a delegate that returns `true`
six times and then vetoes in `DidEnterState`. -/
theorem HandleEvent_commit_point_witness :
    firstMatch singleTable 0 0 = some (Transition.mk 0 0 1) ∧
    ∃ (b : Bool) (w' : World (List Bool)) (delta : List Effect),
      (Driver.create (some Delegate.Scripted)).HandleEvent 0
        (World.ofTable singleTable 0 [true, true, true, true, true, true, false] [])
        = some (b, w') ∧
      w'.log = [] ++ delta ∧
      ((∀ h ∈ [Hook.WillHandleEvent, Hook.WillExitState, Hook.DidExitState,
            Hook.WillTransition, Hook.DidTransition, Hook.WillEnterState],
          (h, true) ∈ hookResults delta) →
        w'.machine.GetCurrentState = (Transition.mk 0 0 1).mEnd ∧
        (∃ (pre post : List Effect) (b7 : Bool),
          delta = pre ++ Effect.setCurrentState (Transition.mk 0 0 1).mEnd ::
            Effect.call Hook.DidEnterState 0 (HookArg.transition (Transition.mk 0 0 1))
              (Transition.mk 0 0 1).mEnd b7 :: post ∧
          hooksInvoked pre = [Hook.WillHandleEvent, Hook.WillExitState, Hook.DidExitState,
            Hook.WillTransition, Hook.DidTransition, Hook.WillEnterState]) ∧
        (((Hook.DidEnterState, false) ∈ hookResults delta ∨
            (Hook.DidHandleEvent, false) ∈ hookResults delta) →
          b = false ∧ w'.machine.GetCurrentState = (Transition.mk 0 0 1).mEnd)) :=
  ⟨by decide,
   HandleEvent_commit_point singleTable 0 0 Delegate.Scripted
    [true, true, true, true, true, true, false] [] (Transition.mk 0 0 1) (by decide)⟩

/-- C8: veto before the commit point is atomic. For every table, current
state `s`, event `e` and delegate, if any of `WillHandleEvent`,
`WillExitState`, `DidExitState`, `WillTransition`, `DidTransition` or
`WillEnterState` returned `false` during `HandleEvent(e)`, then the call
returns `false`, `SetCurrentState` was not called, and the machine is as
before: its current state is exactly `s`. -/
theorem HandleEvent_veto_before_commit (T : List Transition) (s : State) (e : Event)
    (dg : Delegate.Base δ) (x : δ) (log : List Effect) :
    ∃ (b : Bool) (w' : World δ) (delta : List Effect),
      (Driver.create (some dg)).HandleEvent e (World.ofTable T s x log) = some (b, w') ∧
      w'.log = log ++ delta ∧
      ((∃ h ∈ [Hook.WillHandleEvent, Hook.WillExitState, Hook.DidExitState,
            Hook.WillTransition, Hook.DidTransition, Hook.WillEnterState],
          (h, false) ∈ hookResults delta) →
        b = false ∧ w'.machine.GetCurrentState = s ∧
        w'.machine = (World.ofTable T s x log).machine ∧
        ∀ s', Effect.setCurrentState s' ∉ delta) := by
  obtain ⟨b, w', delta, hrun, hlog, hcase⟩ := HandleEvent_run dg T s x log e
  refine ⟨b, w', delta, hrun, hlog, ?_⟩
  rcases hcase with ⟨_, _, hdelta, _⟩ | ⟨t, k, _, hk, hdelta, hres, hveto, hmach⟩
  · subst hdelta
    rintro ⟨h, _, hmem⟩
    simp [hookResults] at hmem
  · rw [hres]
    intro hsix
    have hfin : ∀ k < 8, ∀ b : Bool, (k < 7 → b = false) →
        (∃ h ∈ [Hook.WillHandleEvent, Hook.WillExitState, Hook.DidExitState,
            Hook.WillTransition, Hook.DidTransition, Hook.WillEnterState],
          (h, false) ∈ Driver.passResults k b) →
        k < 6 ∧ b = false := by
      intro k hk b
      interval_cases k <;> cases b <;> decide
    obtain ⟨hk6, hb⟩ := hfin k hk b hveto hsix
    rw [if_pos hk6] at hmach
    refine ⟨hb, by rw [hmach]; rfl, hmach, ?_⟩
    intro s'
    rw [hdelta]
    interval_cases k <;> simp [Driver.passLog]


/-- A hook with a verdict in a log is in the log with the state it
observed. -/
theorem hookObservations_of_result (l : List Effect) (h : Hook) (v : Bool)
    (hmem : (h, v) ∈ hookResults l) : ∃ observed, (h, observed) ∈ hookObservations l := by
  induction l with
  | nil => simp [hookResults] at hmem
  | cons a rest ih =>
    cases a with
    | call h' e' arg' observed' v' =>
      simp only [hookResults, List.mem_cons, Prod.mk.injEq] at hmem
      rcases hmem with ⟨rfl, _⟩ | hrest
      · exact ⟨observed', by simp [hookObservations]⟩
      · obtain ⟨o, ho⟩ := ih hrest
        exact ⟨o, by simp [hookObservations, ho]⟩
    | setCurrentState s' =>
      simp only [hookResults] at hmem
      obtain ⟨o, ho⟩ := ih hmem
      exact ⟨o, by simp [hookObservations, ho]⟩

/-- C9, as stated, fails: on the single-arc table `0 --0--> 1` with the
machine in state `0`, a delegate that returns `true` six times and `false`
from `DidEnterState` makes `HandleEvent(0)` return `false`, and the machine's
current state after the call is `1`, not the state `0` before the call: the
write of the end state precedes the vetoing hook. -/
theorem HandleEvent_veto_after_commit_moves_state :
    ∃ w' : World (List Bool),
      (Driver.create (some Delegate.Scripted)).HandleEvent 0
        (World.ofTable singleTable 0 [true, true, true, true, true, true, false] [])
        = some (false, w') ∧
      (World.ofTable singleTable 0 [true, true, true, true, true, true, false]
        ([] : List Effect)).machine.GetCurrentState = 0 ∧
      hookResults w'.log =
        [(Hook.WillHandleEvent, true), (Hook.WillExitState, true), (Hook.DidExitState, true),
         (Hook.WillTransition, true), (Hook.DidTransition, true), (Hook.WillEnterState, true),
         (Hook.DidEnterState, false)] ∧
      w'.machine.GetCurrentState = 1 ∧
      w'.machine.GetCurrentState ≠ 0 :=
  ⟨_, rfl, rfl, rfl, rfl, by decide⟩

/-- C10, as stated, fails: with `Delegate::Always` on the single-arc table,
`HandleEvent(0)` returns `true`, every hook returned `true`, and the hooks
were not invoked in the order `WillHandleEvent, DidHandleEvent,
WillExitState, DidExitState, WillTransition, DidTransition, WillEnterState,
DidEnterState`: `DidHandleEvent` came last, not second. -/
theorem HandleEvent_hook_order_not_as_declared :
    ∃ w' : World Unit,
      (Driver.create (some Delegate.Always)).HandleEvent 0 (World.ofTable singleTable 0 () [])
        = some (true, w') ∧
      (∀ p ∈ hookResults w'.log, p.2 = true) ∧
      hooksInvoked w'.log ≠
        [Hook.WillHandleEvent, Hook.DidHandleEvent, Hook.WillExitState, Hook.DidExitState,
         Hook.WillTransition, Hook.DidTransition, Hook.WillEnterState, Hook.DidEnterState] ∧
      (hooksInvoked w'.log).get? 1 = some Hook.WillExitState ∧
      (hooksInvoked w'.log).get? 7 = some Hook.DidHandleEvent :=
  ⟨_, rfl, by decide, by decide, rfl, rfl⟩

/-- C10, amended: in a `HandleEvent` call that finds a transition and in
which every hook invoked returns `true`, the eight hooks are invoked exactly
once each, in the order `WillHandleEvent, WillExitState, DidExitState,
WillTransition, DidTransition, WillEnterState, DidEnterState,
DidHandleEvent`. -/
theorem HandleEvent_hook_order (T : List Transition) (s : State) (e : Event)
    (dg : Delegate.Base δ) (x : δ) (log : List Effect) :
    ∃ (b : Bool) (w' : World δ) (delta : List Effect),
      (Driver.create (some dg)).HandleEvent e (World.ofTable T s x log) = some (b, w') ∧
      w'.log = log ++ delta ∧
      ((∃ t ∈ T, t.mStart = s ∧ t.mEvent = e) →
        (∀ p ∈ hookResults delta, p.2 = true) →
        hooksInvoked delta =
          [Hook.WillHandleEvent, Hook.WillExitState, Hook.DidExitState, Hook.WillTransition,
           Hook.DidTransition, Hook.WillEnterState, Hook.DidEnterState, Hook.DidHandleEvent] ∧
        ∀ h : Hook, (hooksInvoked delta).count h = 1) := by
  obtain ⟨b, w', delta, hrun, hlog, hcase⟩ := HandleEvent_run dg T s x log e
  refine ⟨b, w', delta, hrun, hlog, ?_⟩
  rcases hcase with ⟨hnone, _, _, _⟩ | ⟨t, k, _, hk, _, hres, hveto, _⟩
  · rintro ⟨t, ht, hmatch⟩
    exact absurd hmatch ((firstMatch_eq_none_iff T s e).mp hnone t ht)
  · intro _
    unfold hooksInvoked
    rw [hres]
    have hfin : ∀ k < 8, ∀ b : Bool, (k < 7 → b = false) →
        (∀ p ∈ Driver.passResults k b, p.2 = true) →
        (Driver.passResults k b).map Prod.fst =
          [Hook.WillHandleEvent, Hook.WillExitState, Hook.DidExitState, Hook.WillTransition,
           Hook.DidTransition, Hook.WillEnterState, Hook.DidEnterState, Hook.DidHandleEvent] ∧
        ∀ h : Hook, ((Driver.passResults k b).map Prod.fst).count h = 1 := by
      intro k hk b
      interval_cases k <;> cases b <;> decide
    exact hfin k hk b hveto


/-- C11: `WillHandleEvent` and `DidHandleEvent` bracket the whole pass. In a
`HandleEvent` call that finds a transition and in which every hook invoked
returns `true`, `WillHandleEvent` is the first hook invoked, `DidHandleEvent`
is the last one, and the hooks between them are `WillExitState`,
`DidExitState`, `WillTransition`, `DidTransition`, `WillEnterState`,
`DidEnterState`, in this order. -/
theorem HandleEvent_brackets (T : List Transition) (s : State) (e : Event)
    (dg : Delegate.Base δ) (x : δ) (log : List Effect) :
    ∃ (b : Bool) (w' : World δ) (delta : List Effect),
      (Driver.create (some dg)).HandleEvent e (World.ofTable T s x log) = some (b, w') ∧
      w'.log = log ++ delta ∧
      ((∃ t ∈ T, t.mStart = s ∧ t.mEvent = e) →
        (∀ p ∈ hookResults delta, p.2 = true) →
        (hooksInvoked delta).head? = some Hook.WillHandleEvent ∧
        (hooksInvoked delta).getLast? = some Hook.DidHandleEvent ∧
        (hooksInvoked delta).tail.dropLast =
          [Hook.WillExitState, Hook.DidExitState, Hook.WillTransition, Hook.DidTransition,
           Hook.WillEnterState, Hook.DidEnterState] ∧
        (hooksInvoked delta).length = 8) := by
  obtain ⟨b, w', delta, hrun, hlog, hcase⟩ := HandleEvent_run dg T s x log e
  refine ⟨b, w', delta, hrun, hlog, ?_⟩
  rcases hcase with ⟨hnone, _, _, _⟩ | ⟨t, k, _, hk, _, hres, hveto, _⟩
  · rintro ⟨t, ht, hmatch⟩
    exact absurd hmatch ((firstMatch_eq_none_iff T s e).mp hnone t ht)
  · intro _
    unfold hooksInvoked
    rw [hres]
    have hfin : ∀ k < 8, ∀ b : Bool, (k < 7 → b = false) →
        (∀ p ∈ Driver.passResults k b, p.2 = true) →
        ((Driver.passResults k b).map Prod.fst).head? = some Hook.WillHandleEvent ∧
        ((Driver.passResults k b).map Prod.fst).getLast? = some Hook.DidHandleEvent ∧
        ((Driver.passResults k b).map Prod.fst).tail.dropLast =
          [Hook.WillExitState, Hook.DidExitState, Hook.WillTransition, Hook.DidTransition,
           Hook.WillEnterState, Hook.DidEnterState] ∧
        ((Driver.passResults k b).map Prod.fst).length = 8 := by
      intro k hk b
      interval_cases k <;> cases b <;> decide
    exact hfin k hk b hveto


/-- The log of a pass has at most nine entries. -/
theorem passLog_length (e : Event) (s0 s1 : State) (t : Transition) (c : State)
    (k : Nat) (hk : k < 8) (b : Bool) :
    (Driver.passLog e s0 s1 t c k b).length ≤ 9 := by
  interval_cases k <;> simp [Driver.passLog]

/-- In the log of a pass the six hooks through `WillEnterState` observe the
state `c` the machine started in, and the last two observe `t.mEnd`. -/
theorem hookObservations_passLog (e : Event) (s0 s1 : State) (t : Transition) (c : State)
    (k : Nat) (hk : k < 8) (b : Bool) :
    ∀ p ∈ hookObservations (Driver.passLog e s0 s1 t c k b),
      (p.1 ∈ [Hook.WillHandleEvent, Hook.WillExitState, Hook.DidExitState,
          Hook.WillTransition, Hook.DidTransition, Hook.WillEnterState] → p.2 = c) ∧
      (p.1 ∈ [Hook.DidEnterState, Hook.DidHandleEvent] → p.2 = t.mEnd) := by
  interval_cases k <;> simp [Driver.passLog, hookObservations]

/-- C9, amended: a veto holds the state that is current when it is given.
For every table, current state `s`, event `e` and delegate, and for every one
of the eight hooks: if that hook returned `false` during `HandleEvent(e)`, the
call returns `false`, and the machine's current state after the call is the
state the machine was in when the hook was invoked. For `WillHandleEvent`,
`WillExitState`, `DidExitState`, `WillTransition`, `DidTransition` and
`WillEnterState` that is `s`, the state before the call; for `DidEnterState`
and `DidHandleEvent`, which are invoked after the write of the end state, it
is `t.mEnd` of the matched transition `t`. -/
theorem HandleEvent_veto_holds_state_at_veto (T : List Transition) (s : State) (e : Event)
    (dg : Delegate.Base δ) (x : δ) (log : List Effect) :
    ∃ (b : Bool) (w' : World δ) (delta : List Effect),
      (Driver.create (some dg)).HandleEvent e (World.ofTable T s x log) = some (b, w') ∧
      w'.log = log ++ delta ∧
      ∀ h : Hook, (h, false) ∈ hookResults delta →
        b = false ∧
        (h ∈ [Hook.WillHandleEvent, Hook.WillExitState, Hook.DidExitState,
            Hook.WillTransition, Hook.DidTransition, Hook.WillEnterState] →
          w'.machine.GetCurrentState = s) ∧
        (h ∈ [Hook.DidEnterState, Hook.DidHandleEvent] →
          ∃ t, firstMatch T s e = some t ∧ w'.machine.GetCurrentState = t.mEnd) ∧
        (h ∈ [Hook.WillHandleEvent, Hook.WillExitState, Hook.DidExitState,
            Hook.WillTransition, Hook.DidTransition, Hook.WillEnterState] ∨
          h ∈ [Hook.DidEnterState, Hook.DidHandleEvent]) ∧
        (∃ observed, (h, observed) ∈ hookObservations delta) ∧
        (∀ observed, (h, observed) ∈ hookObservations delta →
          w'.machine.GetCurrentState = observed) := by
  obtain ⟨b, w', delta, hrun, hlog, hcase⟩ := HandleEvent_run dg T s x log e
  refine ⟨b, w', delta, hrun, hlog, ?_⟩
  rcases hcase with ⟨_, _, hdelta, _⟩ | ⟨t, k, hfm, hk, hdelta, hres, hveto, hmach⟩
  · subst hdelta
    intro h hmem
    simp [hookResults] at hmem
  · rw [hres]
    intro h hmem
    have hfin : ∀ k < 8, ∀ b : Bool, (k < 7 → b = false) →
        ∀ h : Hook, (h, false) ∈ Driver.passResults k b →
        b = false ∧
        (h ∈ [Hook.WillHandleEvent, Hook.WillExitState, Hook.DidExitState,
            Hook.WillTransition, Hook.DidTransition, Hook.WillEnterState] → k < 6) ∧
        (h ∈ [Hook.DidEnterState, Hook.DidHandleEvent] → ¬ k < 6) ∧
        (h ∈ [Hook.WillHandleEvent, Hook.WillExitState, Hook.DidExitState,
            Hook.WillTransition, Hook.DidTransition, Hook.WillEnterState] ∨
          h ∈ [Hook.DidEnterState, Hook.DidHandleEvent]) := by
      intro k hk b
      interval_cases k <;> cases b <;> decide
    obtain ⟨hb, hsix, htwo, hany⟩ := hfin k hk b hveto h hmem
    have hstate6 : h ∈ [Hook.WillHandleEvent, Hook.WillExitState, Hook.DidExitState,
        Hook.WillTransition, Hook.DidTransition, Hook.WillEnterState] →
        w'.machine.GetCurrentState = s := by
      intro h6
      rw [hmach, if_pos (hsix h6)]
      rfl
    have hstate2 : h ∈ [Hook.DidEnterState, Hook.DidHandleEvent] →
        w'.machine.GetCurrentState = t.mEnd := by
      intro h2
      rw [hmach, if_neg (htwo h2)]
      rfl
    have hobs := hookObservations_passLog e s t.mEnd t s k hk b
    rw [← hdelta] at hobs
    have hex : ∃ observed, (h, observed) ∈ hookObservations delta := by
      have hmem' : (h, false) ∈ hookResults delta := by rw [hres]; exact hmem
      exact hookObservations_of_result delta h false hmem'
    refine ⟨hb, hstate6, fun h2 => ⟨t, hfm, hstate2 h2⟩, hany, hex, ?_⟩
    intro observed hin
    obtain ⟨ho6, ho2⟩ := hobs (h, observed) hin
    rcases hany with h6 | h2
    · rw [hstate6 h6]; exact (ho6 h6).symm
    · rw [hstate2 h2]; exact (ho2 h2).symm

/-- A write of the current state in the log of a pass sits at position 6:
it writes `t.mEnd`, the hooks before it are the six through `WillEnterState`,
and the first hook after it is `DidEnterState`. -/
theorem passLog_write (e : Event) (s0 s1 : State) (t : Transition) (c : State)
    (k : Nat) (hk : k < 8) (b : Bool) (i : Nat) (s' : State)
    (hi : (Driver.passLog e s0 s1 t c k b).get? i = some (Effect.setCurrentState s')) :
    s' = t.mEnd ∧
    hooksInvoked ((Driver.passLog e s0 s1 t c k b).take i) =
      [Hook.WillHandleEvent, Hook.WillExitState, Hook.DidExitState, Hook.WillTransition,
       Hook.DidTransition, Hook.WillEnterState] ∧
    (hooksInvoked ((Driver.passLog e s0 s1 t c k b).drop (i + 1))).head?
      = some Hook.DidEnterState := by
  have hlen := passLog_length e s0 s1 t c k hk b
  have hi9 : i < 9 := by
    by_contra hge
    rw [List.get?_eq_none.mpr (by omega)] at hi
    exact Option.noConfusion hi
  interval_cases k <;> interval_cases i <;>
    simp [Driver.passLog, hooksInvoked, hookResults] at hi ⊢ <;> exact hi.symm


/-- C12: the state mutation lies strictly between `WillEnterState` and
`DidEnterState`. During a `HandleEvent` call on a machine in state `s` with
matched transition `t`, the machine's current state at the moment each of
`WillHandleEvent`, `WillExitState`, `DidExitState`, `WillTransition`,
`DidTransition` and `WillEnterState` is invoked is `s`, and at the moment
`DidEnterState` and `DidHandleEvent` are invoked it is `t.mEnd`; and every
write of the current state in the call writes `t.mEnd`, comes after exactly
the six hooks through `WillEnterState` and is followed first by
`DidEnterState`, so none lies in the `WillTransition`/`DidTransition` stage. -/
theorem HandleEvent_mutation_between (T : List Transition) (s : State) (e : Event)
    (dg : Delegate.Base δ) (x : δ) (log : List Effect) (t : Transition)
    (ht : firstMatch T s e = some t) :
    ∃ (b : Bool) (w' : World δ) (delta : List Effect),
      (Driver.create (some dg)).HandleEvent e (World.ofTable T s x log) = some (b, w') ∧
      w'.log = log ++ delta ∧
      (∀ p ∈ hookObservations delta,
        (p.1 ∈ [Hook.WillHandleEvent, Hook.WillExitState, Hook.DidExitState,
            Hook.WillTransition, Hook.DidTransition, Hook.WillEnterState] → p.2 = s) ∧
        (p.1 ∈ [Hook.DidEnterState, Hook.DidHandleEvent] → p.2 = t.mEnd)) ∧
      (∀ (pre post : List Effect) (s' : State),
        delta = pre ++ Effect.setCurrentState s' :: post →
        s' = t.mEnd ∧
        hooksInvoked pre =
          [Hook.WillHandleEvent, Hook.WillExitState, Hook.DidExitState, Hook.WillTransition,
           Hook.DidTransition, Hook.WillEnterState] ∧
        (hooksInvoked post).head? = some Hook.DidEnterState) := by
  obtain ⟨b, w', delta, hrun, hlog, hcase⟩ := HandleEvent_run dg T s x log e
  refine ⟨b, w', delta, hrun, hlog, ?_⟩
  rcases hcase with ⟨hnone, _, _, _⟩ | ⟨t', k, hsome, hk, hdelta, _, _, _⟩
  · rw [ht] at hnone
    exact Option.noConfusion hnone
  · rw [ht] at hsome
    cases hsome
    refine ⟨by rw [hdelta]; exact hookObservations_passLog e s t.mEnd t s k hk b, ?_⟩
    intro pre post s' hsplit
    have hget : delta.get? pre.length = some (Effect.setCurrentState s') := by
      rw [hsplit, List.get?_eq_getElem?, List.getElem?_append_right (le_refl _)]
      simp
    have htake : delta.take pre.length = pre := by
      rw [hsplit, List.take_left]
    have hdrop : delta.drop (pre.length + 1) = post := by
      rw [hsplit, List.drop_append]
      rfl
    rw [hdelta] at hget htake hdrop
    have h := passLog_write e s t.mEnd t s k hk b pre.length s' hget
    rw [htake, hdrop] at h
    exact h

/-- Witness of C12: `Delegate::Always` on the single-arc table. -/
theorem HandleEvent_mutation_between_witness :
    firstMatch singleTable 0 0 = some (Transition.mk 0 0 1) ∧
    ∃ (b : Bool) (w' : World Unit) (delta : List Effect),
      (Driver.create (some Delegate.Always)).HandleEvent 0 (World.ofTable singleTable 0 () [])
        = some (b, w') ∧
      w'.log = [] ++ delta ∧
      (∀ p ∈ hookObservations delta,
        (p.1 ∈ [Hook.WillHandleEvent, Hook.WillExitState, Hook.DidExitState,
            Hook.WillTransition, Hook.DidTransition, Hook.WillEnterState] → p.2 = 0) ∧
        (p.1 ∈ [Hook.DidEnterState, Hook.DidHandleEvent] →
          p.2 = (Transition.mk 0 0 1).mEnd)) ∧
      (∀ (pre post : List Effect) (s' : State),
        delta = pre ++ Effect.setCurrentState s' :: post →
        s' = (Transition.mk 0 0 1).mEnd ∧
        hooksInvoked pre =
          [Hook.WillHandleEvent, Hook.WillExitState, Hook.DidExitState, Hook.WillTransition,
           Hook.DidTransition, Hook.WillEnterState] ∧
        (hooksInvoked post).head? = some Hook.DidEnterState) :=
  ⟨by decide,
   HandleEvent_mutation_between singleTable 0 0 Delegate.Always () [] (Transition.mk 0 0 1)
    (by decide)⟩

/-- C13: a driver with no machine bound fails at once. For the
default-constructed driver, with or without a delegate set afterwards, and
for every event `e`, state reference `s`, transition `t` and world, the three
overloads `HandleEvent(e)`, `HandleEvent(e, s)` and `HandleEvent(e, s, t)`
return `false` and leave the world as it was: no hook is logged. -/
theorem HandleEvent_no_machine (inDelegate : Option (Delegate.Base δ)) (e : Event)
    (s : StateRef) (t : Transition) (w : World δ) :
    (Driver.SetDelegate Driver.init inDelegate).HandleEvent e w = some (false, w) ∧
    (Driver.SetDelegate Driver.init inDelegate).HandleEventState e s w = some (false, w) ∧
    (Driver.SetDelegate Driver.init inDelegate).HandleEventTransition e s t w = (false, w) ∧
    (Driver.init : Driver δ).HandleEvent e w = some (false, w) ∧
    (Driver.init : Driver δ).HandleEventState e s w = some (false, w) ∧
    (Driver.init : Driver δ).HandleEventTransition e s t w = (false, w) :=
  ⟨rfl, rfl, rfl, rfl, rfl, rfl⟩


/-- A world whose machine is bound to the whole of `T` is a table world. -/
theorem World.eq_ofTable (w : World δ) (T : List Transition) (c : State)
    (h : w.machine = Machine.create (some T) T.length c) :
    w = World.ofTable T c w.delegate w.log := by
  cases w
  simp only [World.ofTable] at h ⊢
  rw [h]

/-- With no delegate bound, the pass fails at its precondition. -/
theorem HandleEventTransition_no_delegate (d : Driver δ) (hdg : d.mDelegate = none)
    (e : Event) (s : StateRef) (t : Transition) (w : World δ) :
    d.HandleEventTransition e s t w = (false, w) := by
  simp only [Driver.HandleEventTransition, hdg]
  split <;> rfl

/-- One `HandleEvent(e)` call through any driver, on a machine bound to the
whole of `T` and sitting in `c`: the machine stays bound to `T`; its state
stays `c` or becomes the end of the first match; a `true` status means it
became that end; and without a match the world is untouched. -/
theorem HandleEvent_step (d : Driver δ) (T : List Transition) (c : State) (x : δ)
    (log : List Effect) (e : Event) :
    ∃ (b : Bool) (c' : State) (x' : δ) (log' : List Effect),
      d.HandleEvent e (World.ofTable T c x log) = some (b, World.ofTable T c' x' log') ∧
      (c' = c ∨ ∃ t, firstMatch T c e = some t ∧ c' = t.mEnd) ∧
      (b = true → ∃ t, firstMatch T c e = some t ∧ c' = t.mEnd) ∧
      (firstMatch T c e = none → b = false ∧ c' = c ∧ x' = x ∧ log' = log) := by
  have hstay : ∃ (b : Bool) (c' : State) (x' : δ) (log' : List Effect),
      some (false, World.ofTable T c x log) = some (b, World.ofTable T c' x' log') ∧
      (c' = c ∨ ∃ t, firstMatch T c e = some t ∧ c' = t.mEnd) ∧
      (b = true → ∃ t, firstMatch T c e = some t ∧ c' = t.mEnd) ∧
      (firstMatch T c e = none → b = false ∧ c' = c ∧ x' = x ∧ log' = log) :=
    ⟨false, c, x, log, rfl, Or.inl rfl, fun h => absurd h (by decide),
      fun _ => ⟨rfl, rfl, rfl, rfl⟩⟩
  by_cases hm : d.mMachine = true
  · have hrun := HandleEvent_ofTable d hm T c x log e
    rw [FindTransitionPredicate_eq_decide] at hrun
    change _ = match firstMatch T c e with
      | none => _
      | some t => _ at hrun
    have hsplit : firstMatch T c e = none ∨ ∃ t, firstMatch T c e = some t := by
      cases firstMatch T c e with
      | none => exact Or.inl rfl
      | some t => exact Or.inr ⟨t, rfl⟩
    rcases hsplit with hfm | ⟨t, hfm⟩
    · rw [hfm] at hrun
      rw [hrun]
      exact hstay
    · rw [hfm] at hrun
      dsimp only at hrun
      rw [hrun]
      cases hdg : d.mDelegate with
      | none =>
        have hnd := HandleEventTransition_no_delegate d hdg e StateRef.current t
          (World.ofTable T c x log)
        simp only [hnd]
        exact hstay
      | some dg =>
        obtain ⟨k, _, _, hveto, hmach⟩ := HandleEventTransition_shape d dg hm hdg e
          StateRef.current t (World.ofTable T c x log)
        generalize d.HandleEventTransition e StateRef.current t (World.ofTable T c x log)
          = r at hveto hmach ⊢
        by_cases hk6 : k < 6
        · rw [if_pos hk6] at hmach
          refine ⟨r.1, c, r.2.delegate, r.2.log, ?_, Or.inl rfl, ?_, ?_⟩
          · rw [← World.eq_ofTable r.2 T c hmach]
          · intro hb
            rw [hveto (by omega)] at hb
            exact absurd hb (by decide)
          · intro hnone
            rw [hfm] at hnone
            exact Option.noConfusion hnone
        · rw [if_neg hk6] at hmach
          refine ⟨r.1, t.mEnd, r.2.delegate, r.2.log, ?_, Or.inr ⟨t, hfm, rfl⟩,
            fun _ => ⟨t, hfm, rfl⟩, ?_⟩
          · rw [← World.eq_ofTable r.2 T t.mEnd hmach]
          · intro hnone
            rw [hfm] at hnone
            exact Option.noConfusion hnone
  · have hm2 : d.mMachine = false := by simpa using hm
    have hrun : d.HandleEvent e (World.ofTable T c x log)
        = some (false, World.ofTable T c x log) := by
      simp [Driver.HandleEvent, hm2]
    rw [hrun]
    exact hstay

/-- C14: a driver with a machine bound and a null delegate is total and
without effect. For every table, current state `s` and event `e`, matched or
not, `HandleEvent(e)` returns `false` and the world is as before, so the
machine's current state remains `s`. -/
theorem HandleEvent_no_delegate (T : List Transition) (s : State) (e : Event) (x : δ)
    (log : List Effect) :
    (Driver.create (none : Option (Delegate.Base δ))).HandleEvent e
        (World.ofTable T s x log) = some (false, World.ofTable T s x log) ∧
    (World.ofTable T s x log).machine.GetCurrentState = s := by
  refine ⟨?_, rfl⟩
  rw [HandleEvent_ofTable (Driver.create none) rfl]
  cases T.find? (FindTransitionPredicate s e) with
  | none => rfl
  | some t => rfl


/-! ## Further claims about `Machine` -/

/-- C15: `FindTransition` is sound and complete. For every table `T`, state
`s` and event `e`, `FindTransition(s, e)` returns a transition if and only if
some entry of `T` has `mStart = s` and `mEvent = e`, and returns `NULL`
otherwise; a transition returned is an entry of `T` with `mStart = s` and
`mEvent = e`; and the predicate does not look at `mEnd`. In the reference
table every `(state, event)` with state in `A, B, C` is found and every
`(D, event)` is not. -/
theorem FindTransition_sound_complete (T : List Transition) (c s : State) (e : Event) :
    ((∃ (i : Nat) (t : Transition),
        (Machine.create (some T) T.length c).FindTransition s e = Found.entry i t) ↔
      ∃ t ∈ T, t.mStart = s ∧ t.mEvent = e) ∧
    ((Machine.create (some T) T.length c).FindTransition s e = Found.null ↔
      ¬ ∃ t ∈ T, t.mStart = s ∧ t.mEvent = e) ∧
    (∀ (i : Nat) (t : Transition),
      (Machine.create (some T) T.length c).FindTransition s e = Found.entry i t →
      T.get? i = some t ∧ t ∈ T ∧ t.mStart = s ∧ t.mEvent = e) ∧
    (∀ (t : Transition) (newEnd : State),
      FindTransitionPredicate s e { t with mEnd := newEnd } = FindTransitionPredicate s e t) ∧
    (∀ s0 ∈ [kStateA, kStateB, kStateC],
      ∀ e0 ∈ [kEventStay, kEventForward, kEventBackward, kEventSkip, kEventError],
      ∃ (i : Nat) (t : Transition),
        (Machine.create (some sTransitions) sTransitions.length c).FindTransition s0 e0
          = Found.entry i t) ∧
    (∀ e0 ∈ [kEventStay, kEventForward, kEventBackward, kEventSkip, kEventError],
      (Machine.create (some sTransitions) sTransitions.length c).FindTransition kStateD e0
        = Found.null) := by
  have hgen : ∀ (T : List Transition) (s : State) (e : Event),
      ((∃ t ∈ T, t.mStart = s ∧ t.mEvent = e) →
        ∃ (i : Nat) (t : Transition), T.get? i = some t ∧ t ∈ T ∧
          t.mStart = s ∧ t.mEvent = e ∧
          (Machine.create (some T) T.length c).FindTransition s e = Found.entry i t) ∧
      ((¬ ∃ t ∈ T, t.mStart = s ∧ t.mEvent = e) →
        (Machine.create (some T) T.length c).FindTransition s e = Found.null) := by
    intro T s e
    constructor
    · rintro ⟨t0, ht0, hm0⟩
      obtain ⟨i, t, hit, hpt, _, hres⟩ :=
        Machine.FindTransition.loop_least T c (FindTransitionPredicate s e)
          ⟨t0, ht0, (FindTransitionPredicate_iff s e t0).mpr hm0⟩
      have hm := (FindTransitionPredicate_iff s e t).mp hpt
      exact ⟨i, t, hit, List.get?_mem hit, hm.1, hm.2, hres⟩
    · intro hno
      rw [FindTransition_ofTable, FindTransitionPredicate_eq_decide]
      have hnone := (firstMatch_eq_none_iff T s e).mpr
        (fun t ht hm => hno ⟨t, ht, hm⟩)
      unfold firstMatch at hnone
      rw [hnone]
  obtain ⟨hyes, hno⟩ := hgen T s e
  refine ⟨?_, ?_, ?_, ?_, ?_, ?_⟩
  · constructor
    · rintro ⟨i, t, hres⟩
      by_contra hnot
      rw [hno hnot] at hres
      exact Found.noConfusion hres
    · intro hex
      obtain ⟨i, t, _, _, _, _, hres⟩ := hyes hex
      exact ⟨i, t, hres⟩
  · constructor
    · intro hnull hex
      obtain ⟨i, t, _, _, _, _, hres⟩ := hyes hex
      rw [hnull] at hres
      exact Found.noConfusion hres
    · exact hno
  · intro i t hres
    by_cases hex : ∃ t ∈ T, t.mStart = s ∧ t.mEvent = e
    · obtain ⟨i', t', hget, hmem, h1, h2, hres'⟩ := hyes hex
      rw [hres'] at hres
      cases hres
      exact ⟨hget, hmem, h1, h2⟩
    · rw [hno hex] at hres
      exact Found.noConfusion hres
  · intro t newEnd
    rfl
  · intro s0 hs0 e0 he0
    have hex : ∃ t ∈ sTransitions, t.mStart = s0 ∧ t.mEvent = e0 := by
      revert s0 e0
      decide
    obtain ⟨i, t, _, _, _, _, hres⟩ := (hgen sTransitions s0 e0).1 hex
    exact ⟨i, t, hres⟩
  · intro e0 he0
    have hnot : ¬ ∃ t ∈ sTransitions, t.mStart = kStateD ∧ t.mEvent = e0 := by
      revert e0
      decide
    exact (hgen sTransitions kStateD e0).2 hnot

/-- C16, as stated, fails: a machine whose table pointer is null and whose
count is `1` does not answer "not found"; the scan reads through the null
pointer. -/
theorem FindTransition_null_table_faults :
    (Machine.create none 1 0).mFirstTransition = none ∧
    (Machine.create none 1 0).FindTransition 0 0 ≠ Found.null ∧
    (Machine.create none 1 0).FindTransition 0 0 = Found.fault :=
  ⟨rfl, by decide, rfl⟩

/-- C16, amended: empty-machine mode is a count of zero. For a machine whose
count is zero, whether its table pointer is null or not, `FindTransition(s,
e)` returns `NULL` for every state `s` and event `e` without reading the
table; the default-constructed machine is such a machine, with a null table
and state `0`. -/
theorem FindTransition_empty_machine (inTransitions : Option (List Transition))
    (c s : State) (e : Event) :
    (Machine.create inTransitions 0 c).FindTransition s e = Found.null ∧
    Machine.init.FindTransition s e = Found.null ∧
    Machine.init.mCount = 0 ∧ Machine.init.mFirstTransition = none ∧
    Machine.init.GetCurrentState = 0 :=
  ⟨rfl, rfl, rfl, rfl, rfl⟩

/-- The scan depends on the machine only through its table. -/
theorem Machine.FindTransition.loop_congr (m m' : Machine) (p : Transition → Bool)
    (h : m.mFirstTransition = m'.mFirstTransition) :
    ∀ (n start : Nat), Machine.FindTransition.loop m p n start
      = Machine.FindTransition.loop m' p n start := by
  intro n
  induction n with
  | zero => intro start; rfl
  | succ n ih =>
    intro start
    have hread : m.read start = m'.read start := by
      simp only [Machine.read, h]
    rw [Machine.FindTransition.loop, Machine.FindTransition.loop, hread]
    cases m'.read start with
    | none => rfl
    | some t => simp only [ih]

/-- C20: `SetCurrentState` performs no validation. For every machine and
every state `s`, in the table or not, after `SetCurrentState(s)`
`GetCurrentState()` returns `s`, the table pointer and the count are as
before, and `FindTransition` answers every query as before. -/
theorem SetCurrentState_no_validation (m : Machine) (s : State) :
    (m.SetCurrentState s).GetCurrentState = s ∧
    (m.SetCurrentState s).mFirstTransition = m.mFirstTransition ∧
    (m.SetCurrentState s).mCount = m.mCount ∧
    ∀ (s' : State) (e' : Event),
      (m.SetCurrentState s).FindTransition s' e' = m.FindTransition s' e' :=
  ⟨rfl, rfl, rfl, fun s' e' =>
    Machine.FindTransition.loop_congr (m.SetCurrentState s) m
      (FindTransitionPredicate s' e') rfl m.mCount 0⟩


/-! ## Sequences of calls -/

/-- Unfolding a run at its first call. -/
theorem Driver.runEvents_cons (d : Driver δ) (e : Event) (rest : List (Driver δ × Event))
    (w w' : World δ) (b : Bool) (h : d.HandleEvent e w = some (b, w')) :
    Driver.runEvents ((d, e) :: rest) w =
      match Driver.runEvents rest w' with
      | none => none
      | some p => some ((b, w'.machine.GetCurrentState) :: p.1, p.2) := by
  simp only [Driver.runEvents, h]

/-- C17: dead states are terminal. For every table `T` and every state `d`
that is the `mStart` of no entry of `T`, with the machine in `d`, every
`HandleEvent(e)` through every driver returns `false` and leaves the world
untouched; hence every finite sequence of such calls returns `false` each
time with the state `d` after each call, and ends in the same world. -/
theorem HandleEvent_dead_state (T : List Transition) (d : State)
    (hdead : ∀ t ∈ T, t.mStart ≠ d) (calls : List (Driver δ × Event)) (x : δ)
    (log : List Effect) :
    (∀ (dr : Driver δ) (e : Event),
      dr.HandleEvent e (World.ofTable T d x log) = some (false, World.ofTable T d x log)) ∧
    (World.ofTable T d x log).machine.GetCurrentState = d ∧
    Driver.runEvents calls (World.ofTable T d x log)
      = some (calls.map (fun _ => (false, d)), World.ofTable T d x log) := by
  have hone : ∀ (dr : Driver δ) (e : Event),
      dr.HandleEvent e (World.ofTable T d x log)
        = some (false, World.ofTable T d x log) := by
    intro dr e
    have hnone : firstMatch T d e = none :=
      (firstMatch_eq_none_iff T d e).mpr (fun t ht hm => hdead t ht hm.1)
    obtain ⟨b, c', x', log', hrun, _, _, hstay⟩ := HandleEvent_step dr T d x log e
    obtain ⟨hb, hc, hx, hl⟩ := hstay hnone
    rw [hrun, hb, hc, hx, hl]
  refine ⟨hone, rfl, ?_⟩
  induction calls with
  | nil => rfl
  | cons call rest ih =>
    obtain ⟨dr, e⟩ := call
    rw [Driver.runEvents_cons dr e rest _ _ false (hone dr e), ih]
    rfl

/-- Witness of C17: state `D` of the reference table, three calls. -/
theorem HandleEvent_dead_state_witness :
    (∀ t ∈ sTransitions, t.mStart ≠ kStateD) ∧
    (∀ (dr : Driver Unit) (e : Event),
      dr.HandleEvent e (World.ofTable sTransitions kStateD () [])
        = some (false, World.ofTable sTransitions kStateD () [])) ∧
    (World.ofTable sTransitions kStateD () ([] : List Effect)).machine.GetCurrentState
      = kStateD ∧
    Driver.runEvents
        [(Driver.create (some Delegate.Always), kEventStay),
         (Driver.create (some Delegate.Never), kEventForward),
         (Driver.create (some Delegate.Always), kEventError)]
        (World.ofTable sTransitions kStateD () [])
      = some ([(Driver.create (some Delegate.Always), kEventStay),
         (Driver.create (some Delegate.Never), kEventForward),
         (Driver.create (some Delegate.Always), kEventError)].map (fun _ => (false, kStateD)),
        World.ofTable sTransitions kStateD () []) :=
  ⟨by decide,
   HandleEvent_dead_state sTransitions kStateD (by decide)
    [(Driver.create (some Delegate.Always), kEventStay),
     (Driver.create (some Delegate.Never), kEventForward),
     (Driver.create (some Delegate.Always), kEventError)] () []⟩

/-- C18: machine state invariant. For a machine constructed with table `T`
and initial state `s0` and driven only through `HandleEvent(e)`, by any
drivers with any delegates, for any events and any number of calls, every
call returns, and the current state after every call, and at the end, is
`s0` or the `mEnd` of some entry of `T`; the machine stays bound to `T`. -/
theorem HandleEvent_state_invariant (T : List Transition) (s0 : State)
    (calls : List (Driver δ × Event)) (x : δ) (log : List Effect) :
    ∃ (tr : List (Bool × State)) (w' : World δ),
      Driver.runEvents calls (World.ofTable T s0 x log) = some (tr, w') ∧
      (∀ p ∈ tr, p.2 = s0 ∨ ∃ t ∈ T, t.mEnd = p.2) ∧
      (w'.machine.GetCurrentState = s0 ∨ ∃ t ∈ T, t.mEnd = w'.machine.GetCurrentState) ∧
      w'.machine.mFirstTransition = some T ∧ w'.machine.mCount = T.length := by
  have hgen : ∀ (calls : List (Driver δ × Event)) (c : State) (x : δ) (log : List Effect),
      (c = s0 ∨ ∃ t ∈ T, t.mEnd = c) →
      ∃ (tr : List (Bool × State)) (c' : State) (x' : δ) (log' : List Effect),
        Driver.runEvents calls (World.ofTable T c x log)
          = some (tr, World.ofTable T c' x' log') ∧
        (∀ p ∈ tr, p.2 = s0 ∨ ∃ t ∈ T, t.mEnd = p.2) ∧
        (c' = s0 ∨ ∃ t ∈ T, t.mEnd = c') := by
    intro calls
    induction calls with
    | nil =>
      intro c x log hc
      exact ⟨[], c, x, log, rfl, by simp, hc⟩
    | cons call rest ih =>
      intro c x log hc
      obtain ⟨dr, e⟩ := call
      obtain ⟨b, c1, x1, log1, hrun, hstep, _, _⟩ := HandleEvent_step dr T c x log e
      have hc1 : c1 = s0 ∨ ∃ t ∈ T, t.mEnd = c1 := by
        rcases hstep with rfl | ⟨t, hfm, rfl⟩
        · exact hc
        · exact Or.inr ⟨t, (firstMatch_some T c e t hfm).1, rfl⟩
      obtain ⟨tr, c', x', log', hrest, htr, hc'⟩ := ih c1 x1 log1 hc1
      refine ⟨(b, c1) :: tr, c', x', log', ?_, ?_, hc'⟩
      · rw [Driver.runEvents_cons dr e rest _ _ b hrun, hrest]
        rfl
      · intro p hp
        rcases List.mem_cons.mp hp with rfl | hp
        · exact hc1
        · exact htr p hp
  obtain ⟨tr, c', x', log', hrun, htr, hc'⟩ := hgen calls s0 x log (Or.inl rfl)
  exact ⟨tr, _, hrun, htr, hc', rfl, rfl⟩


/-- One call through a driver whose delegate always returns `true`, when
`t` is the first match: the call succeeds and the machine is in `t.mEnd`. -/
theorem HandleEvent_step_true (dg : Delegate.Base δ) (hdg : dg.AlwaysReturns true)
    (T : List Transition) (c : State) (x : δ) (log : List Effect) (e : Event)
    (t : Transition) (ht : firstMatch T c e = some t) :
    ∃ (x' : δ) (log' : List Effect),
      (Driver.create (some dg)).HandleEvent e (World.ofTable T c x log)
        = some (true, World.ofTable T t.mEnd x' log') := by
  have hrun := HandleEvent_ofTable (Driver.create (some dg)) rfl T c x log e
  rw [FindTransitionPredicate_eq_decide] at hrun
  unfold firstMatch at ht
  rw [ht] at hrun
  dsimp only at hrun
  obtain ⟨h1, _, h3⟩ := HandleEventTransition_always_true (Driver.create (some dg)) dg rfl rfl
    hdg e StateRef.current t (World.ofTable T c x log)
  generalize (Driver.create (some dg)).HandleEventTransition e StateRef.current t
    (World.ofTable T c x log) = r at hrun h1 h3
  refine ⟨r.2.delegate, r.2.log, ?_⟩
  rw [hrun, ← World.eq_ofTable r.2 T t.mEnd h3, ← h1]

/-- One call through a driver whose delegate always returns `false`: the
call fails and the machine stays in its state. -/
theorem HandleEvent_step_false (dg : Delegate.Base δ) (hdg : dg.AlwaysReturns false)
    (T : List Transition) (c : State) (x : δ) (log : List Effect) (e : Event) :
    ∃ (x' : δ) (log' : List Effect),
      (Driver.create (some dg)).HandleEvent e (World.ofTable T c x log)
        = some (false, World.ofTable T c x' log') := by
  have hrun := HandleEvent_ofTable (Driver.create (some dg)) rfl T c x log e
  cases hfind : T.find? (FindTransitionPredicate c e) with
  | none =>
    rw [hfind] at hrun
    exact ⟨x, log, hrun⟩
  | some t =>
    rw [hfind] at hrun
    dsimp only at hrun
    obtain ⟨h1, _, h3⟩ := HandleEventTransition_always_false (Driver.create (some dg)) dg
      rfl rfl hdg e StateRef.current t (World.ofTable T c x log)
    generalize (Driver.create (some dg)).HandleEventTransition e StateRef.current t
      (World.ofTable T c x log) = r at hrun h1 h3
    refine ⟨r.2.delegate, r.2.log, ?_⟩
    rw [hrun, ← World.eq_ofTable r.2 T c h3, ← h1]

/-- A call through the always-false driver leaves the state. -/
theorem alternatingTrace_false (T : List Transition) (c : State) (e : Event)
    (rest : List (Bool × Event)) :
    alternatingTrace T c ((false, e) :: rest) = (false, c) :: alternatingTrace T c rest := by
  rw [alternatingTrace]
  cases firstMatch T c e <;> simp

/-- A call without a matching arc leaves the state. -/
theorem alternatingTrace_none (T : List Transition) (c : State) (always : Bool) (e : Event)
    (rest : List (Bool × Event)) (h : firstMatch T c e = none) :
    alternatingTrace T c ((always, e) :: rest) = (false, c) :: alternatingTrace T c rest := by
  rw [alternatingTrace, h]

/-- A call through the always-true driver takes the first matching arc. -/
theorem alternatingTrace_true (T : List Transition) (c : State) (e : Event)
    (rest : List (Bool × Event)) (t : Transition) (h : firstMatch T c e = some t) :
    alternatingTrace T c ((true, e) :: rest)
      = (true, t.mEnd) :: alternatingTrace T t.mEnd rest := by
  rw [alternatingTrace, h]
  simp

/-- A run of calls through an always-true driver and an always-false driver
sharing the machine gives the expected statuses and states. -/
theorem Driver.runEvents_alternating (dgT dgF : Delegate.Base δ)
    (hT : dgT.AlwaysReturns true) (hF : dgF.AlwaysReturns false) (T : List Transition) :
    ∀ (calls : List (Bool × Event)) (c : State) (x : δ) (log : List Effect),
      ∃ w' : World δ,
        Driver.runEvents
            (calls.map (fun p => (Driver.create (some (if p.1 then dgT else dgF)), p.2)))
            (World.ofTable T c x log)
          = some (alternatingTrace T c calls, w') := by
  intro calls
  induction calls with
  | nil => intro c x log; exact ⟨_, rfl⟩
  | cons call rest ih =>
    intro c x log
    obtain ⟨always, e⟩ := call
    cases always with
    | false =>
      obtain ⟨x1, log1, hrun⟩ := HandleEvent_step_false dgF hF T c x log e
      obtain ⟨w', hrest⟩ := ih c x1 log1
      refine ⟨w', ?_⟩
      rw [List.map_cons]
      simp only [Bool.false_eq_true, if_false]
      rw [Driver.runEvents_cons _ e _ _ _ false hrun, hrest, alternatingTrace_false]
      rfl
    | true =>
      rw [List.map_cons]
      simp only [if_true]
      have hsplit : firstMatch T c e = none ∨ ∃ t, firstMatch T c e = some t := by
        cases firstMatch T c e with
        | none => exact Or.inl rfl
        | some t => exact Or.inr ⟨t, rfl⟩
      rcases hsplit with hfm | ⟨t, hfm⟩
      · obtain ⟨b, c', x', log', hrun, _, _, hstay⟩ :=
          HandleEvent_step (Driver.create (some dgT)) T c x log e
        obtain ⟨hb, hc, hx, hl⟩ := hstay hfm
        subst hb hc hx hl
        obtain ⟨w', hrest⟩ := ih c' x' log'
        refine ⟨w', ?_⟩
        rw [Driver.runEvents_cons _ e _ _ _ false hrun, hrest,
          alternatingTrace_none T c' true e rest hfm]
        rfl
      · obtain ⟨x1, log1, hrun⟩ := HandleEvent_step_true dgT hT T c x log e t hfm
        obtain ⟨w', hrest⟩ := ih t.mEnd x1 log1
        refine ⟨w', ?_⟩
        rw [Driver.runEvents_cons _ e _ _ _ true hrun, hrest,
          alternatingTrace_true T c e rest t hfm]
        rfl

/-- C19: reference scenario. On the reference table with initial state `A`,
with a driver whose delegate always returns `true` and a driver whose
delegate always returns `false` sharing the machine: `Forward` returns `true`
and the state is `B`, `Backward` returns `true` and the state is `A`, `Skip`
returns `true` and the state is `C`, `Error` returns `true` and the state is
`D`; from `D` each of `Stay`, `Forward`, `Backward`, `Skip`, `Error` returns
`false` and the state remains `D`; and the always-false driver, called with
the same event after each of these calls, returns `false` and leaves the
state. -/
theorem HandleEvent_reference_scenario (dgT dgF : Delegate.Base δ)
    (hT : dgT.AlwaysReturns true) (hF : dgF.AlwaysReturns false) (x : δ)
    (log : List Effect) :
    ∃ w' : World δ,
      Driver.runEvents
          [(Driver.create (some dgT), kEventForward), (Driver.create (some dgF), kEventForward),
           (Driver.create (some dgT), kEventBackward),
           (Driver.create (some dgF), kEventBackward),
           (Driver.create (some dgT), kEventSkip), (Driver.create (some dgF), kEventSkip),
           (Driver.create (some dgT), kEventError), (Driver.create (some dgF), kEventError),
           (Driver.create (some dgT), kEventStay), (Driver.create (some dgF), kEventStay),
           (Driver.create (some dgT), kEventForward), (Driver.create (some dgF), kEventForward),
           (Driver.create (some dgT), kEventBackward),
           (Driver.create (some dgF), kEventBackward),
           (Driver.create (some dgT), kEventSkip), (Driver.create (some dgF), kEventSkip),
           (Driver.create (some dgT), kEventError), (Driver.create (some dgF), kEventError)]
          (World.ofTable sTransitions kStateA x log)
        = some ([(true, kStateB), (false, kStateB), (true, kStateA), (false, kStateA),
                 (true, kStateC), (false, kStateC), (true, kStateD), (false, kStateD),
                 (false, kStateD), (false, kStateD), (false, kStateD), (false, kStateD),
                 (false, kStateD), (false, kStateD), (false, kStateD), (false, kStateD),
                 (false, kStateD), (false, kStateD)], w') := by
  obtain ⟨w', hrun⟩ := Driver.runEvents_alternating dgT dgF hT hF sTransitions
    scenarioCalls kStateA x log
  exact ⟨w', hrun⟩

/-- Witness of C19: the delegates `Delegate::Always` and `Delegate::Never`
of the test. -/
theorem HandleEvent_reference_scenario_witness :
    Delegate.Base.AlwaysReturns Delegate.Always true ∧
    Delegate.Base.AlwaysReturns Delegate.Never false ∧
    ∃ w' : World Unit,
      Driver.runEvents
          [(Driver.create (some Delegate.Always), kEventForward),
           (Driver.create (some Delegate.Never), kEventForward),
           (Driver.create (some Delegate.Always), kEventBackward),
           (Driver.create (some Delegate.Never), kEventBackward),
           (Driver.create (some Delegate.Always), kEventSkip),
           (Driver.create (some Delegate.Never), kEventSkip),
           (Driver.create (some Delegate.Always), kEventError),
           (Driver.create (some Delegate.Never), kEventError),
           (Driver.create (some Delegate.Always), kEventStay),
           (Driver.create (some Delegate.Never), kEventStay),
           (Driver.create (some Delegate.Always), kEventForward),
           (Driver.create (some Delegate.Never), kEventForward),
           (Driver.create (some Delegate.Always), kEventBackward),
           (Driver.create (some Delegate.Never), kEventBackward),
           (Driver.create (some Delegate.Always), kEventSkip),
           (Driver.create (some Delegate.Never), kEventSkip),
           (Driver.create (some Delegate.Always), kEventError),
           (Driver.create (some Delegate.Never), kEventError)]
          (World.ofTable sTransitions kStateA () [])
        = some ([(true, kStateB), (false, kStateB), (true, kStateA), (false, kStateA),
                 (true, kStateC), (false, kStateC), (true, kStateD), (false, kStateD),
                 (false, kStateD), (false, kStateD), (false, kStateD), (false, kStateD),
                 (false, kStateD), (false, kStateD), (false, kStateD), (false, kStateD),
                 (false, kStateD), (false, kStateD)], w') :=
  ⟨by simp [Delegate.Base.AlwaysReturns, Delegate.Always],
   by simp [Delegate.Base.AlwaysReturns, Delegate.Never],
   HandleEvent_reference_scenario Delegate.Always Delegate.Never
    (by simp [Delegate.Base.AlwaysReturns, Delegate.Always])
    (by simp [Delegate.Base.AlwaysReturns, Delegate.Never]) () []⟩


/-! ## Claims about the accessors and the constructors of `Machine` -/

/-- C21: `SetCurrentState` is idempotent. For every machine `m` and state
`s`, the machine after `SetCurrentState(s); SetCurrentState(s)` is the
machine after one `SetCurrentState(s)`, field by field, and
`GetCurrentState()` returns `s`. -/
theorem SetCurrentState_idempotent (m : Machine) (s : State) :
    (m.SetCurrentState s).SetCurrentState s = m.SetCurrentState s ∧
    ((m.SetCurrentState s).SetCurrentState s).mCurrentState
      = (m.SetCurrentState s).mCurrentState ∧
    ((m.SetCurrentState s).SetCurrentState s).mFirstTransition
      = (m.SetCurrentState s).mFirstTransition ∧
    ((m.SetCurrentState s).SetCurrentState s).mCount = (m.SetCurrentState s).mCount ∧
    ((m.SetCurrentState s).SetCurrentState s).GetCurrentState = s :=
  ⟨rfl, rfl, rfl, rfl, rfl⟩

/-- C22: `SetTransitions` rebinds all three fields together. For every
machine `m`, table `T`, count `n` within `T` and state `s`, after
`SetTransitions(T, n, s)` `GetCurrentState()` returns `s`, the machine does
not depend on `m`, and `FindTransition` searches exactly the first `n`
entries of `T`: it returns the first of them that matches, with its offset,
and `NULL` when none of them matches. The constructor `Machine(T, n, s)`
gives the machine of default construction followed by `SetTransitions(T, n,
s)`. -/
theorem SetTransitions_rebinds (m : Machine) (T : List Transition) (n : Nat) (s : State)
    (hn : n ≤ T.length) :
    (m.SetTransitions (some T) n s).GetCurrentState = s ∧
    (m.SetTransitions (some T) n s).mFirstTransition = some T ∧
    (m.SetTransitions (some T) n s).mCount = n ∧
    (∀ m' : Machine, m'.SetTransitions (some T) n s = m.SetTransitions (some T) n s) ∧
    (∀ (s' : State) (e' : Event),
      (m.SetTransitions (some T) n s).FindTransition s' e' =
        match firstMatch (T.take n) s' e' with
        | none => Found.null
        | some t =>
          Found.entry ((T.take n).findIdx (fun u => decide (u.mStart = s' ∧ u.mEvent = e'))) t) ∧
    Machine.create (some T) n s = Machine.init.SetTransitions (some T) n s := by
  refine ⟨rfl, rfl, rfl, fun _ => rfl, ?_, rfl⟩
  intro s' e'
  have hlen : (T.take n).length = n := by
    rw [List.length_take]
    omega
  have h := Machine.FindTransition.loop_eq_find (m.SetTransitions (some T) n s)
    (FindTransitionPredicate s' e') (T.drop n) (T.take n) []
    (by simp [Machine.SetTransitions])
  rw [hlen, FindTransitionPredicate_eq_decide] at h
  simpa [Machine.FindTransition, Machine.SetTransitions, firstMatch,
    FindTransitionPredicate_eq_decide] using h

/-- Witness of C22: rebinding a machine of the reference table to the first
entry of the duplicate table. -/
theorem SetTransitions_rebinds_witness :
    1 ≤ duplicateTable.length ∧
    ((Machine.create (some sTransitions) 15 kStateA).SetTransitions
        (some duplicateTable) 1 5).GetCurrentState = 5 ∧
    ((Machine.create (some sTransitions) 15 kStateA).SetTransitions
        (some duplicateTable) 1 5).mFirstTransition = some duplicateTable ∧
    ((Machine.create (some sTransitions) 15 kStateA).SetTransitions
        (some duplicateTable) 1 5).mCount = 1 ∧
    (∀ m' : Machine, m'.SetTransitions (some duplicateTable) 1 5
      = (Machine.create (some sTransitions) 15 kStateA).SetTransitions
          (some duplicateTable) 1 5) ∧
    (∀ (s' : State) (e' : Event),
      ((Machine.create (some sTransitions) 15 kStateA).SetTransitions
          (some duplicateTable) 1 5).FindTransition s' e' =
        match firstMatch (duplicateTable.take 1) s' e' with
        | none => Found.null
        | some t =>
          Found.entry ((duplicateTable.take 1).findIdx
            (fun u => decide (u.mStart = s' ∧ u.mEvent = e'))) t) ∧
    Machine.create (some duplicateTable) 1 5
      = Machine.init.SetTransitions (some duplicateTable) 1 5 :=
  ⟨by decide,
   SetTransitions_rebinds (Machine.create (some sTransitions) 15 kStateA) duplicateTable 1 5
    (by decide)⟩

/-! ## Claims about the delegates of the library -/

/-- C25: the Boolean delegate is constant. For every boolean `b`, every one
of the eight hooks of `Delegate::Boolean(b)` and every event, state and
transition, the hook returns `b` and leaves the delegate as it was; so every
sequence of hook calls returns `b` each time. -/
theorem Boolean_constant (b : Bool) (h : Hook) (e : Event) (s : State) (t : Transition)
    (calls : List (Hook × Event × State × Transition)) :
    Delegate.Boolean.call h e s t (Delegate.Boolean.create b)
      = (b, Delegate.Boolean.create b) ∧
    Delegate.Boolean.callAll calls (Delegate.Boolean.create b)
      = (calls.map (fun _ => b), Delegate.Boolean.create b) := by
  constructor
  · cases h <;> rfl
  · induction calls with
    | nil => rfl
    | cons c rest ih =>
      obtain ⟨h', e', s', t'⟩ := c
      have hcall : Delegate.Boolean.call h' e' s' t' (Delegate.Boolean.create b)
          = (b, Delegate.Boolean.create b) := by
        cases h' <;> rfl
      rw [Delegate.Base.callAll, hcall]
      simp only [ih, List.map_cons]


/-- The method `GetStatus` in closed form: one draw, doubled, divided by
`2^31`, and compared with zero. -/
theorem Delegate.Random.GetStatus_eq {γ : Type} (lrand48 : γ → Int × γ) (g : γ) :
    Delegate.Random.GetStatus lrand48 g
      = (intToBool (Int.tdiv (2 * (lrand48 g).1) 2147483648), (lrand48 g).2) := by
  have hw : wrapSigned 32 (wrapSigned 32 (1 - 0) + 1) = 2 := by decide
  simp only [Delegate.Random.GetStatus, rand_range, boolToInt, hw]
  simp

/-- Every hook of the random delegate is `GetStatus`. -/
theorem Delegate.Random.call_eq {γ : Type} (lrand48 : γ → Int × γ) (h : Hook) (e : Event)
    (s : State) (t : Transition) (g : γ) :
    (Delegate.Random lrand48).call h e s t g = Delegate.Random.GetStatus lrand48 g := by
  cases h <;> rfl

/-- For a draw in the range of `lrand48`, the status is `true` exactly from
`2^30` on. -/
theorem Delegate.Random.status_iff (r : Int) (h0 : 0 ≤ r) (h1 : r ≤ 2 ^ 31 - 1) :
    (intToBool (Int.tdiv (2 * r) 2147483648) = true ↔ 2 ^ 30 ≤ r) ∧
    (intToBool (Int.tdiv (2 * r) 2147483648) = true ↔ (2 * r) / 2 ^ 31 = 1) := by
  rw [Int.tdiv_eq_ediv (by omega) (by norm_num)]
  simp only [intToBool, decide_eq_true_eq]
  constructor <;> omega

/-- C26: the random delegate is uniform with respect to the draw. Each hook
returns `rand_range<bool>(false, true)` computed from one `lrand48` draw `r`;
for `0 ≤ r ≤ 2^31 - 1` it is `true` exactly when `floor(2 * r / 2^31) = 1`,
that is when `r ≥ 2^30`; so `2^30` of the `2^31` possible draws give `true`
and `2^30` give `false`. -/
theorem Random_uniform {γ : Type} (lrand48 : γ → Int × γ) (g : γ) (h : Hook) (e : Event)
    (s : State) (t : Transition)
    (h0 : 0 ≤ (lrand48 g).1) (h1 : (lrand48 g).1 ≤ 2 ^ 31 - 1) :
    (Delegate.Random lrand48).call h e s t g
      = rand_range boolToInt intToBool (wrapSigned 32) lrand48 false true g ∧
    ((rand_range boolToInt intToBool (wrapSigned 32) lrand48 false true g).1 = true ↔
      (2 * (lrand48 g).1) / 2 ^ 31 = 1) ∧
    ((rand_range boolToInt intToBool (wrapSigned 32) lrand48 false true g).1 = true ↔
      2 ^ 30 ≤ (lrand48 g).1) ∧
    (rand_range boolToInt intToBool (wrapSigned 32) lrand48 false true g).2 = (lrand48 g).2 ∧
    ((Finset.Icc (0 : Int) (2 ^ 31 - 1)).filter (fun r =>
      (Delegate.Random.GetStatus (fun u : Unit => (r, u)) ()).1 = true)).card = 2 ^ 30 ∧
    ((Finset.Icc (0 : Int) (2 ^ 31 - 1)).filter (fun r =>
      (Delegate.Random.GetStatus (fun u : Unit => (r, u)) ()).1 = false)).card = 2 ^ 30 := by
  have heq := Delegate.Random.GetStatus_eq lrand48 g
  unfold Delegate.Random.GetStatus at heq
  obtain ⟨hiff1, hiff2⟩ := Delegate.Random.status_iff (lrand48 g).1 h0 h1
  refine ⟨Delegate.Random.call_eq lrand48 h e s t g, ?_, ?_, ?_, ?_, ?_⟩
  · rw [heq]; exact hiff2
  · rw [heq]; exact hiff1
  · rw [heq]
  · have hset : (Finset.Icc (0 : Int) (2 ^ 31 - 1)).filter (fun r =>
        (Delegate.Random.GetStatus (fun u : Unit => (r, u)) ()).1 = true)
        = Finset.Icc (2 ^ 30) (2 ^ 31 - 1) := by
      ext r
      simp only [Finset.mem_filter, Finset.mem_Icc, Delegate.Random.GetStatus_eq]
      constructor
      · rintro ⟨⟨hr0, hr1⟩, hst⟩
        exact ⟨(Delegate.Random.status_iff r hr0 hr1).1.mp hst, hr1⟩
      · rintro ⟨hr0, hr1⟩
        have hr0' : (0 : Int) ≤ r := by omega
        exact ⟨⟨hr0', hr1⟩, (Delegate.Random.status_iff r hr0' hr1).1.mpr hr0⟩
    rw [hset, Int.card_Icc]
    norm_num
    rfl
  · have hset : (Finset.Icc (0 : Int) (2 ^ 31 - 1)).filter (fun r =>
        (Delegate.Random.GetStatus (fun u : Unit => (r, u)) ()).1 = false)
        = Finset.Icc 0 (2 ^ 30 - 1) := by
      ext r
      simp only [Finset.mem_filter, Finset.mem_Icc, Delegate.Random.GetStatus_eq]
      constructor
      · rintro ⟨⟨hr0, hr1⟩, hst⟩
        have hnot : ¬ (2 : Int) ^ 30 ≤ r := by
          intro hge
          rw [(Delegate.Random.status_iff r hr0 hr1).1.mpr hge] at hst
          exact Bool.noConfusion hst
        exact ⟨hr0, by omega⟩
      · rintro ⟨hr0, hr1⟩
        have hr1' : r ≤ 2 ^ 31 - 1 := by omega
        refine ⟨⟨hr0, hr1'⟩, ?_⟩
        cases hst : intToBool (Int.tdiv (2 * r) 2147483648) with
        | false => rfl
        | true =>
          have := (Delegate.Random.status_iff r hr0 hr1').1.mp hst
          omega
    rw [hset, Int.card_Icc]
    norm_num
    rfl

/-- Witness of C26: the first draw of the sample generator seeded with `0`. -/
theorem Random_uniform_witness :
    0 ≤ (sampleLrand48 (sampleSrand48 0)).1 ∧
    (sampleLrand48 (sampleSrand48 0)).1 ≤ 2 ^ 31 - 1 ∧
    (Delegate.Random sampleLrand48).call Hook.WillExitState 0 0 (Transition.mk 0 0 1)
        (sampleSrand48 0)
      = rand_range boolToInt intToBool (wrapSigned 32) sampleLrand48 false true (sampleSrand48 0) ∧
    ((rand_range boolToInt intToBool (wrapSigned 32) sampleLrand48 false true (sampleSrand48 0)).1 = true ↔
      (2 * (sampleLrand48 (sampleSrand48 0)).1) / 2 ^ 31 = 1) ∧
    ((rand_range boolToInt intToBool (wrapSigned 32) sampleLrand48 false true (sampleSrand48 0)).1 = true ↔
      2 ^ 30 ≤ (sampleLrand48 (sampleSrand48 0)).1) ∧
    (rand_range boolToInt intToBool (wrapSigned 32) sampleLrand48 false true (sampleSrand48 0)).2
      = (sampleLrand48 (sampleSrand48 0)).2 ∧
    ((Finset.Icc (0 : Int) (2 ^ 31 - 1)).filter (fun r =>
      (Delegate.Random.GetStatus (fun u : Unit => (r, u)) ()).1 = true)).card = 2 ^ 30 ∧
    ((Finset.Icc (0 : Int) (2 ^ 31 - 1)).filter (fun r =>
      (Delegate.Random.GetStatus (fun u : Unit => (r, u)) ()).1 = false)).card = 2 ^ 30 :=
  ⟨by decide, by decide,
   Random_uniform sampleLrand48 (sampleSrand48 0) Hook.WillExitState 0 0 (Transition.mk 0 0 1)
    (by decide) (by decide)⟩


/-- A sequence of hook calls gives one verdict for each call. -/
theorem Delegate.Base.callAll_length (dg : Delegate.Base δ) :
    ∀ (cs : List (Hook × Event × State × Transition)) (x : δ),
      (dg.callAll cs x).1.length = cs.length := by
  intro cs
  induction cs with
  | nil => intro x; rfl
  | cons c rest ih =>
    intro x
    obtain ⟨h, e, s, t⟩ := c
    rw [Delegate.Base.callAll]
    simp only [List.length_cons, ih]

/-- The verdicts of a sequence of hook calls on the random delegate depend
on the number of calls only. -/
theorem Delegate.Random.callAll_same {γ : Type} (lrand48 : γ → Int × γ) :
    ∀ (cs1 cs2 : List (Hook × Event × State × Transition)) (g : γ),
      cs1.length = cs2.length →
      (Delegate.Random lrand48).callAll cs1 g = (Delegate.Random lrand48).callAll cs2 g := by
  intro cs1
  induction cs1 with
  | nil =>
    intro cs2 g hlen
    cases cs2 with
    | nil => rfl
    | cons c rest => exact absurd hlen (by simp)
  | cons c1 rest1 ih =>
    intro cs2 g hlen
    cases cs2 with
    | nil => exact absurd hlen (by simp)
    | cons c2 rest2 =>
      obtain ⟨h1, e1, s1, t1⟩ := c1
      obtain ⟨h2, e2, s2, t2⟩ := c2
      have hrest : rest1.length = rest2.length := by simpa using hlen
      rw [Delegate.Base.callAll, Delegate.Base.callAll, Delegate.Random.call_eq,
        Delegate.Random.call_eq]
      simp only [ih rest2 _ hrest]

/-- C27: the random delegate is deterministic under a fixed seed. Each hook
call is one `GetStatus()`: it consumes exactly one draw of the generator (the
generator is left in the state after one `lrand48`) and its verdict is a
function of that draw alone, whatever the hook and its arguments; so two runs
that construct `Random(seed)` with the same seed and make the same number of
hook calls return the same sequence of booleans. -/
theorem Random_deterministic {γ : Type} (lrand48 : γ → Int × γ) (srand48 : Nat → γ)
    (inSeed : Nat) (g : γ) (h : Hook) (e : Event) (s : State) (t : Transition)
    (cs1 cs2 : List (Hook × Event × State × Transition))
    (hlen : cs1.length = cs2.length) :
    (Delegate.Random lrand48).call h e s t g
      = (intToBool (Int.tdiv (2 * (lrand48 g).1) 2147483648), (lrand48 g).2) ∧
    ((Delegate.Random lrand48).callAll cs1 (Delegate.Random.create srand48 inSeed)).1
      = ((Delegate.Random lrand48).callAll cs2 (Delegate.Random.create srand48 inSeed)).1 ∧
    ((Delegate.Random lrand48).callAll cs1 (Delegate.Random.create srand48 inSeed)).2
      = ((Delegate.Random lrand48).callAll cs2 (Delegate.Random.create srand48 inSeed)).2 ∧
    ((Delegate.Random lrand48).callAll cs1 (Delegate.Random.create srand48 inSeed)).1.length
      = cs1.length := by
  refine ⟨?_, ?_, ?_, ?_⟩
  · rw [Delegate.Random.call_eq, Delegate.Random.GetStatus_eq]
  · rw [Delegate.Random.callAll_same lrand48 cs1 cs2 _ hlen]
  · rw [Delegate.Random.callAll_same lrand48 cs1 cs2 _ hlen]
  · exact Delegate.Base.callAll_length _ cs1 _


/-- Witness of C27: two runs of two hook calls each, with different hooks
and arguments, on the sample generator seeded with `9050`. -/
theorem Random_deterministic_witness :
    [(Hook.WillHandleEvent, kEventStay, kStateA, Transition.mk 0 0 1),
      (Hook.DidEnterState, kEventStay, kStateA, Transition.mk 0 0 1)].length
      = [(Hook.DidExitState, kEventSkip, kStateC, Transition.mk 2 3 1),
          (Hook.DidHandleEvent, kEventError, kStateB, Transition.mk 1 4 3)].length ∧
    (Delegate.Random sampleLrand48).call Hook.WillTransition 0 0 (Transition.mk 0 0 1) 7
      = (intToBool (Int.tdiv (2 * (sampleLrand48 7).1) 2147483648), (sampleLrand48 7).2) ∧
    ((Delegate.Random sampleLrand48).callAll
        [(Hook.WillHandleEvent, kEventStay, kStateA, Transition.mk 0 0 1),
         (Hook.DidEnterState, kEventStay, kStateA, Transition.mk 0 0 1)]
        (Delegate.Random.create sampleSrand48 9050)).1
      = ((Delegate.Random sampleLrand48).callAll
        [(Hook.DidExitState, kEventSkip, kStateC, Transition.mk 2 3 1),
         (Hook.DidHandleEvent, kEventError, kStateB, Transition.mk 1 4 3)]
        (Delegate.Random.create sampleSrand48 9050)).1 ∧
    ((Delegate.Random sampleLrand48).callAll
        [(Hook.WillHandleEvent, kEventStay, kStateA, Transition.mk 0 0 1),
         (Hook.DidEnterState, kEventStay, kStateA, Transition.mk 0 0 1)]
        (Delegate.Random.create sampleSrand48 9050)).2
      = ((Delegate.Random sampleLrand48).callAll
        [(Hook.DidExitState, kEventSkip, kStateC, Transition.mk 2 3 1),
         (Hook.DidHandleEvent, kEventError, kStateB, Transition.mk 1 4 3)]
        (Delegate.Random.create sampleSrand48 9050)).2 ∧
    ((Delegate.Random sampleLrand48).callAll
        [(Hook.WillHandleEvent, kEventStay, kStateA, Transition.mk 0 0 1),
         (Hook.DidEnterState, kEventStay, kStateA, Transition.mk 0 0 1)]
        (Delegate.Random.create sampleSrand48 9050)).1.length
      = [(Hook.WillHandleEvent, kEventStay, kStateA, Transition.mk 0 0 1),
         (Hook.DidEnterState, kEventStay, kStateA, Transition.mk 0 0 1)].length :=
  ⟨rfl,
   Random_deterministic sampleLrand48 sampleSrand48 9050 7 Hook.WillTransition 0 0
    (Transition.mk 0 0 1)
    [(Hook.WillHandleEvent, kEventStay, kStateA, Transition.mk 0 0 1),
     (Hook.DidEnterState, kEventStay, kStateA, Transition.mk 0 0 1)]
    [(Hook.DidExitState, kEventSkip, kStateC, Transition.mk 2 3 1),
     (Hook.DidHandleEvent, kEventError, kStateB, Transition.mk 1 4 3)] rfl⟩

/-- C23, as stated, fails: on the single-arc table `0 --0--> 1` with the
machine in state `0` and `Delegate::Always`, `HandleEvent(0)` returns `true`,
`WillHandleEvent` is handed the state `0` and `DidHandleEvent` is handed the
state `1`, the end state just written, not `0`: the argument is the reference
returned by `GetCurrentState()`. The overload `HandleEvent(0, s)` called with
a state object of the caller holding `0` hands `0` to both. -/
theorem HandleEvent_did_handle_event_gets_end_state :
    (World.ofTable singleTable 0 () ([] : List Effect)).machine.GetCurrentState = 0 ∧
    (∃ w' : World Unit,
      (Driver.create (some Delegate.Always)).HandleEvent 0 (World.ofTable singleTable 0 () [])
        = some (true, w') ∧
      hookArguments w'.log =
        [(Hook.WillHandleEvent, HookArg.state 0),
         (Hook.WillExitState, HookArg.transition (Transition.mk 0 0 1)),
         (Hook.DidExitState, HookArg.transition (Transition.mk 0 0 1)),
         (Hook.WillTransition, HookArg.transition (Transition.mk 0 0 1)),
         (Hook.DidTransition, HookArg.transition (Transition.mk 0 0 1)),
         (Hook.WillEnterState, HookArg.transition (Transition.mk 0 0 1)),
         (Hook.DidEnterState, HookArg.transition (Transition.mk 0 0 1)),
         (Hook.DidHandleEvent, HookArg.state 1)] ∧
      (Hook.DidHandleEvent, HookArg.state 0) ∉ hookArguments w'.log) ∧
    (∃ w' : World Unit,
      (Driver.create (some Delegate.Always)).HandleEventState 0 (StateRef.value 0)
          (World.ofTable singleTable 0 () [])
        = some (true, w') ∧
      (Hook.WillHandleEvent, HookArg.state 0) ∈ hookArguments w'.log ∧
      (Hook.DidHandleEvent, HookArg.state 0) ∈ hookArguments w'.log) :=
  ⟨rfl, ⟨_, rfl, rfl, by decide⟩, ⟨_, rfl, by decide, by decide⟩⟩

/-- The state arguments in the log of a pass: `WillHandleEvent` is handed
`s0`, `DidHandleEvent` is handed `s1`. -/
theorem hookArguments_passLog (e : Event) (s0 s1 : State) (t : Transition) (c : State)
    (k : Nat) (hk : k < 8) (b : Bool) :
    (∀ a, (Hook.WillHandleEvent, a) ∈ hookArguments (Driver.passLog e s0 s1 t c k b) →
      a = HookArg.state s0) ∧
    (∀ a, (Hook.DidHandleEvent, a) ∈ hookArguments (Driver.passLog e s0 s1 t c k b) →
      a = HookArg.state s1) ∧
    (Hook.WillHandleEvent, HookArg.state s0)
      ∈ hookArguments (Driver.passLog e s0 s1 t c k b) ∧
    (k = 7 → (Hook.DidHandleEvent, HookArg.state s1)
      ∈ hookArguments (Driver.passLog e s0 s1 t c k b)) := by
  interval_cases k <;> simp [Driver.passLog, hookArguments]

/-- C23, amended: `WillHandleEvent` and `DidHandleEvent` are handed the
machine's current state at the moment each is invoked. In a pass started by
`HandleEvent(event)` on a machine in state `s` with matched transition `t`,
`WillHandleEvent` is handed `s`, and `DidHandleEvent`, which is invoked when
every hook before it returned `true`, is handed the newly committed end state
`t.mEnd`; so the two are handed the same state only when `t.mEnd = s`. -/
theorem HandleEvent_handle_event_arguments (T : List Transition) (s : State) (e : Event)
    (dg : Delegate.Base δ) (x : δ) (log : List Effect) (t : Transition)
    (ht : firstMatch T s e = some t) :
    ∃ (b : Bool) (w' : World δ) (delta : List Effect),
      (Driver.create (some dg)).HandleEvent e (World.ofTable T s x log) = some (b, w') ∧
      w'.log = log ++ delta ∧
      (∀ a, (Hook.WillHandleEvent, a) ∈ hookArguments delta → a = HookArg.state s) ∧
      (∀ a, (Hook.DidHandleEvent, a) ∈ hookArguments delta → a = HookArg.state t.mEnd) ∧
      (Hook.WillHandleEvent, HookArg.state s) ∈ hookArguments delta ∧
      ((∀ r ∈ hookResults delta, r.2 = true) →
        (Hook.DidHandleEvent, HookArg.state t.mEnd) ∈ hookArguments delta ∧
        ((Hook.DidHandleEvent, HookArg.state s) ∈ hookArguments delta → t.mEnd = s)) := by
  obtain ⟨b, w', delta, hrun, hlog, hcase⟩ := HandleEvent_run dg T s x log e
  refine ⟨b, w', delta, hrun, hlog, ?_⟩
  rcases hcase with ⟨hnone, _, _, _⟩ | ⟨t', k, hsome, hk, hdelta, hres, hveto, _⟩
  · rw [ht] at hnone
    exact Option.noConfusion hnone
  · rw [ht] at hsome
    cases hsome
    obtain ⟨h1, h2, h3, h4⟩ := hookArguments_passLog e s t.mEnd t s k hk b
    rw [← hdelta] at h1 h2 h3 h4
    refine ⟨h1, h2, h3, ?_⟩
    intro hall
    rw [hres] at hall
    have hfin : ∀ k < 8, ∀ b : Bool, (k < 7 → b = false) →
        (∀ r ∈ Driver.passResults k b, r.2 = true) → k = 7 := by
      intro k hk b
      interval_cases k <;> cases b <;> decide
    have hk7 := hfin k hk b hveto hall
    refine ⟨h4 hk7, ?_⟩
    intro hmem
    have := h2 _ hmem
    exact (HookArg.state.inj this).symm

/-- Witness of C23, amended: `Delegate::Always` on the single-arc table. -/
theorem HandleEvent_handle_event_arguments_witness :
    firstMatch singleTable 0 0 = some (Transition.mk 0 0 1) ∧
    ∃ (b : Bool) (w' : World Unit) (delta : List Effect),
      (Driver.create (some Delegate.Always)).HandleEvent 0 (World.ofTable singleTable 0 () [])
        = some (b, w') ∧
      w'.log = [] ++ delta ∧
      (∀ a, (Hook.WillHandleEvent, a) ∈ hookArguments delta → a = HookArg.state 0) ∧
      (∀ a, (Hook.DidHandleEvent, a) ∈ hookArguments delta →
        a = HookArg.state (Transition.mk 0 0 1).mEnd) ∧
      (Hook.WillHandleEvent, HookArg.state 0) ∈ hookArguments delta ∧
      ((∀ r ∈ hookResults delta, r.2 = true) →
        (Hook.DidHandleEvent, HookArg.state (Transition.mk 0 0 1).mEnd)
          ∈ hookArguments delta ∧
        ((Hook.DidHandleEvent, HookArg.state 0) ∈ hookArguments delta →
          (Transition.mk 0 0 1).mEnd = 0)) :=
  ⟨by decide,
   HandleEvent_handle_event_arguments singleTable 0 0 Delegate.Always () []
    (Transition.mk 0 0 1) (by decide)⟩

/-- The number of state writes in the log of a pass: none when the pass
stops within the six hooks through `WillEnterState`, one otherwise. -/
theorem setCount_passLog (e : Event) (s0 s1 : State) (t : Transition) (c : State)
    (k : Nat) (hk : k < 8) (b : Bool) :
    setCount (Driver.passLog e s0 s1 t c k b) = if k < 6 then 0 else 1 := by
  interval_cases k <;> rfl

/-- A driver with a machine and a delegate bound is the driver constructed
from that delegate. -/
theorem Driver.eq_create (d : Driver δ) (dg : Delegate.Base δ) (hm : d.mMachine = true)
    (hdg : d.mDelegate = some dg) : d = Driver.create (some dg) := by
  cases d
  simp only [Driver.create, Driver.SetDelegate, Driver.SetMachine, Driver.init] at hm hdg ⊢
  rw [hm, hdg]

/-- C24: the machine's current state is written at most once in a
`HandleEvent` call, and exactly once in every call that returns `true`.
`SetCurrentState` is called zero times exactly when the driver has no
machine or no delegate, or no entry matches, or one of the six hooks through
`WillEnterState` returns `false`; and one time otherwise. -/
theorem HandleEvent_mutates_once (d : Driver δ) (T : List Transition) (s : State)
    (e : Event) (x : δ) (log : List Effect) :
    ∃ (b : Bool) (w' : World δ) (delta : List Effect),
      d.HandleEvent e (World.ofTable T s x log) = some (b, w') ∧
      w'.log = log ++ delta ∧
      setCount delta ≤ 1 ∧
      (b = true → setCount delta = 1) ∧
      (setCount delta = 0 ↔
        (d.mMachine = false ∨ d.mDelegate = none ∨
         (∀ t ∈ T, ¬ (t.mStart = s ∧ t.mEvent = e)) ∨
         ∃ h ∈ [Hook.WillHandleEvent, Hook.WillExitState, Hook.DidExitState,
            Hook.WillTransition, Hook.DidTransition, Hook.WillEnterState],
          (h, false) ∈ hookResults delta)) ∧
      (setCount delta = 1 ∨ setCount delta = 0) := by
  have hquiet : ∀ (hwhy : d.mMachine = false ∨ d.mDelegate = none ∨
        (∀ t ∈ T, ¬ (t.mStart = s ∧ t.mEvent = e))),
      d.HandleEvent e (World.ofTable T s x log) = some (false, World.ofTable T s x log) →
      ∃ (b : Bool) (w' : World δ) (delta : List Effect),
        d.HandleEvent e (World.ofTable T s x log) = some (b, w') ∧
        w'.log = log ++ delta ∧
        setCount delta ≤ 1 ∧
        (b = true → setCount delta = 1) ∧
        (setCount delta = 0 ↔
          (d.mMachine = false ∨ d.mDelegate = none ∨
           (∀ t ∈ T, ¬ (t.mStart = s ∧ t.mEvent = e)) ∨
           ∃ h ∈ [Hook.WillHandleEvent, Hook.WillExitState, Hook.DidExitState,
              Hook.WillTransition, Hook.DidTransition, Hook.WillEnterState],
            (h, false) ∈ hookResults delta)) ∧
        (setCount delta = 1 ∨ setCount delta = 0) := by
    intro hwhy hrun
    refine ⟨false, _, [], hrun, by simp [World.ofTable], by simp [setCount],
      fun h => absurd h (by decide), ?_, Or.inr rfl⟩
    constructor
    · intro _
      rcases hwhy with h | h | h
      · exact Or.inl h
      · exact Or.inr (Or.inl h)
      · exact Or.inr (Or.inr (Or.inl h))
    · intro _; rfl
  by_cases hm : d.mMachine = true
  · have hsplit : d.mDelegate = none ∨ ∃ dg, d.mDelegate = some dg := by
      cases d.mDelegate with
      | none => exact Or.inl rfl
      | some dg => exact Or.inr ⟨dg, rfl⟩
    rcases hsplit with hdg | ⟨dg, hdg⟩
    · apply hquiet (Or.inr (Or.inl hdg))
      rw [HandleEvent_ofTable d hm]
      cases T.find? (FindTransitionPredicate s e) with
      | none => rfl
      | some t =>
        simp only [HandleEventTransition_no_delegate d hdg]
    · have hd := Driver.eq_create d dg hm hdg
      obtain ⟨b, w', delta, hrun, hlog, hcase⟩ := HandleEvent_run dg T s x log e
      rw [← hd] at hrun
      rcases hcase with ⟨hnone, hb, hdelta, _⟩ | ⟨t, k, hsome, hk, hdelta, hres, hveto, _⟩
      · subst hb
        have hw : w' = World.ofTable T s x log := by
          have h1 := HandleEvent_step d T s x log e
          obtain ⟨b1, c1, x1, l1, hrun1, _, _, hstay⟩ := h1
          obtain ⟨_, hc, hx, hl⟩ := hstay hnone
          rw [hrun] at hrun1
          rw [hc, hx, hl] at hrun1
          exact (Prod.mk.inj (Option.some.inj hrun1)).2
        rw [hw] at hrun
        exact hquiet (Or.inr (Or.inr ((firstMatch_eq_none_iff T s e).mp hnone))) hrun
      · have hfin : ∀ k < 8, ∀ b : Bool, (k < 7 → b = false) →
            ((b = true → ¬ k < 6) ∧
             (k < 6 ↔ ∃ h ∈ [Hook.WillHandleEvent, Hook.WillExitState, Hook.DidExitState,
                Hook.WillTransition, Hook.DidTransition, Hook.WillEnterState],
              (h, false) ∈ Driver.passResults k b)) := by
          intro k hk b
          interval_cases k <;> cases b <;> decide
        obtain ⟨htrue, hsix⟩ := hfin k hk b hveto
        have hcount : setCount delta = if k < 6 then 0 else 1 := by
          rw [hdelta]
          exact setCount_passLog e s t.mEnd t s k hk b
        have hmatch := firstMatch_some T s e t hsome
        refine ⟨b, w', delta, hrun, hlog, ?_, ?_, ?_, ?_⟩
        · rw [hcount]; split <;> omega
        · intro hb
          rw [hcount, if_neg (htrue hb)]
        · rw [hres, hcount]
          constructor
          · intro h0
            have hk6 : k < 6 := by
              by_contra hnot
              rw [if_neg hnot] at h0
              exact absurd h0 (by decide)
            exact Or.inr (Or.inr (Or.inr (hsix.mp hk6)))
          · rintro (h | h | h | h)
            · rw [hm] at h; exact absurd h (by decide)
            · rw [hdg] at h; exact Option.noConfusion h
            · exact absurd hmatch.2 (h t hmatch.1)
            · rw [if_pos (hsix.mpr h)]
        · rw [hcount]
          by_cases hk6 : k < 6
          · rw [if_pos hk6]; exact Or.inr rfl
          · rw [if_neg hk6]; exact Or.inl rfl
  · have hm2 : d.mMachine = false := by simpa using hm
    apply hquiet (Or.inl hm2)
    simp [Driver.HandleEvent, hm2]


/-- C29: step relation of the driver. For every table `T`, current state
`s`, event `e` and driver, whatever its hooks answer, the machine's current
state after `HandleEvent(e)` is `s` or the `mEnd` of the first entry of `T`
matching `(s, e)`, and it is that `mEnd` when the call returns `true`; hence
after every call of a sequence of `HandleEvent` calls, and at its end, the
current state is connected to the initial state `s` by a path of arcs of
`T`. -/
theorem HandleEvent_step_relation (d : Driver δ) (T : List Transition) (s : State)
    (e : Event) (x : δ) (log : List Effect) (calls : List (Driver δ × Event)) :
    (∃ (b : Bool) (w' : World δ),
      d.HandleEvent e (World.ofTable T s x log) = some (b, w') ∧
      (w'.machine.GetCurrentState = s ∨
        ∃ t, firstMatch T s e = some t ∧ w'.machine.GetCurrentState = t.mEnd) ∧
      (b = true →
        ∃ t, firstMatch T s e = some t ∧ w'.machine.GetCurrentState = t.mEnd)) ∧
    (∃ (tr : List (Bool × State)) (w' : World δ),
      Driver.runEvents calls (World.ofTable T s x log) = some (tr, w') ∧
      (∀ p ∈ tr, Relation.ReflTransGen (arc T) s p.2) ∧
      Relation.ReflTransGen (arc T) s w'.machine.GetCurrentState) := by
  constructor
  · obtain ⟨b, c', x', log', hrun, hstep, htrue, _⟩ := HandleEvent_step d T s x log e
    exact ⟨b, _, hrun, hstep, htrue⟩
  · have hgen : ∀ (calls : List (Driver δ × Event)) (c : State) (x : δ) (log : List Effect),
        Relation.ReflTransGen (arc T) s c →
        ∃ (tr : List (Bool × State)) (c' : State) (x' : δ) (log' : List Effect),
          Driver.runEvents calls (World.ofTable T c x log)
            = some (tr, World.ofTable T c' x' log') ∧
          (∀ p ∈ tr, Relation.ReflTransGen (arc T) s p.2) ∧
          Relation.ReflTransGen (arc T) s c' := by
      intro calls
      induction calls with
      | nil =>
        intro c x log hc
        exact ⟨[], c, x, log, rfl, by simp, hc⟩
      | cons call rest ih =>
        intro c x log hc
        obtain ⟨dr, ev⟩ := call
        obtain ⟨b, c1, x1, log1, hrun, hstep, _, _⟩ := HandleEvent_step dr T c x log ev
        have hc1 : Relation.ReflTransGen (arc T) s c1 := by
          rcases hstep with rfl | ⟨t, hfm, rfl⟩
          · exact hc
          · have hm := firstMatch_some T c ev t hfm
            exact Relation.ReflTransGen.tail hc ⟨t, hm.1, hm.2.1, rfl⟩
        obtain ⟨tr, c', x', log', hrest, htr, hc'⟩ := ih c1 x1 log1 hc1
        refine ⟨(b, c1) :: tr, c', x', log', ?_, ?_, hc'⟩
        · rw [Driver.runEvents_cons dr ev rest _ _ b hrun, hrest]
          rfl
        · intro p hp
          rcases List.mem_cons.mp hp with rfl | hp
          · exact hc1
          · exact htr p hp
    obtain ⟨tr, c', x', log', hrun, htr, hc'⟩ :=
      hgen calls s x log Relation.ReflTransGen.refl
    exact ⟨tr, _, hrun, htr, hc'⟩

/-- C30, amended: the three `HandleEvent` overloads agree. For a driver with
a machine bound, `HandleEvent(e)` is `HandleEvent(e, r)` for the reference
`r` that `GetCurrentState()` returns: same return value, same log of hook
invocations and same final world; and `HandleEvent(e, s)` returns `false`
without effect when `FindTransition(s, e)` returns `NULL`, and is
`HandleEvent(e, s, t)` when it returns the entry `t`. -/
theorem HandleEvent_overloads_agree (d : Driver δ) (hm : d.mMachine = true) (e : Event)
    (s : StateRef) (w : World δ) :
    d.HandleEvent e w = d.HandleEventState e StateRef.current w ∧
    (w.machine.FindTransition (s.read w.machine) e = Found.null →
      d.HandleEventState e s w = some (false, w)) ∧
    (∀ (i : Nat) (t : Transition),
      w.machine.FindTransition (s.read w.machine) e = Found.entry i t →
      d.HandleEventState e s w = some (d.HandleEventTransition e s t w)) := by
  have hne : ¬ d.mMachine = false := by rw [hm]; decide
  refine ⟨?_, ?_, ?_⟩
  · simp only [Driver.HandleEvent, if_neg hne]
  · intro hnull
    simp only [Driver.HandleEventState, if_neg hne, hnull]
  · intro i t hentry
    simp only [Driver.HandleEventState, if_neg hne, hentry]

/-- Witness of C30, amended: the driver of `Delegate::Always` on the
single-arc table. -/
theorem HandleEvent_overloads_agree_witness :
    (Driver.create (some Delegate.Always)).mMachine = true ∧
    (Driver.create (some Delegate.Always)).HandleEvent 0 (World.ofTable singleTable 0 () [])
      = (Driver.create (some Delegate.Always)).HandleEventState 0 StateRef.current
          (World.ofTable singleTable 0 () []) ∧
    ((World.ofTable singleTable 0 () ([] : List Effect)).machine.FindTransition
        ((StateRef.value 0).read (World.ofTable singleTable 0 () ([] : List Effect)).machine) 0
        = Found.null →
      (Driver.create (some Delegate.Always)).HandleEventState 0 (StateRef.value 0)
          (World.ofTable singleTable 0 () [])
        = some (false, World.ofTable singleTable 0 () [])) ∧
    (∀ (i : Nat) (t : Transition),
      (World.ofTable singleTable 0 () ([] : List Effect)).machine.FindTransition
        ((StateRef.value 0).read (World.ofTable singleTable 0 () ([] : List Effect)).machine) 0
        = Found.entry i t →
      (Driver.create (some Delegate.Always)).HandleEventState 0 (StateRef.value 0)
          (World.ofTable singleTable 0 () [])
        = some ((Driver.create (some Delegate.Always)).HandleEventTransition 0
            (StateRef.value 0) t (World.ofTable singleTable 0 () []))) :=
  ⟨rfl,
   HandleEvent_overloads_agree (Driver.create (some Delegate.Always)) rfl 0 (StateRef.value 0)
    (World.ofTable singleTable 0 () [])⟩

/-- C30, as stated, fails: on the single-arc table `0 --0--> 1` with the
machine in state `0`, and a delegate whose `DidHandleEvent` returns `true`
exactly on the state `0`, `HandleEvent(0)` returns `false`, because
`DidHandleEvent` is handed the state `1`, while `HandleEvent(0, s)` with a
state object `s` of the caller holding the machine's current state `0`
returns `true`, because `DidHandleEvent` is handed `0`; both leave the
machine in state `1`. -/
theorem HandleEvent_overloads_differ_on_copy :
    (World.ofTable singleTable 0 () ([] : List Effect)).machine.GetCurrentState = 0 ∧
    (∃ w' : World Unit,
      (Driver.create (some Delegate.DidAtZero)).HandleEvent 0
          (World.ofTable singleTable 0 () []) = some (false, w') ∧
      w'.machine.GetCurrentState = 1 ∧
      (Hook.DidHandleEvent, HookArg.state 1) ∈ hookArguments w'.log) ∧
    (∃ w' : World Unit,
      (Driver.create (some Delegate.DidAtZero)).HandleEventState 0 (StateRef.value 0)
          (World.ofTable singleTable 0 () []) = some (true, w') ∧
      w'.machine.GetCurrentState = 1 ∧
      (Hook.DidHandleEvent, HookArg.state 0) ∈ hookArguments w'.log) :=
  ⟨rfl, ⟨_, rfl, rfl, by decide⟩, ⟨_, rfl, rfl, by decide⟩⟩


/-! ## The reads of the table scan -/

/-- The traced loop returns what the loop returns. -/
theorem Machine.FindTransition.loopTraced_fst (m : Machine) (p : Transition → Bool) :
    ∀ (n start : Nat),
      (Machine.FindTransition.loopTraced m p n start).1
        = Machine.FindTransition.loop m p n start := by
  intro n
  induction n with
  | zero => intro start; rfl
  | succ n ih =>
    intro start
    rw [Machine.FindTransition.loopTraced, Machine.FindTransition.loop]
    cases m.read start with
    | none => rfl
    | some t =>
      by_cases hp : p t = true
      · simp only [hp, if_true]
      · simp only [hp, if_false, Bool.false_eq_true]
        exact ih (start + 1)

/-- The reads of the scan over the window `l` of the table `pre ++ l ++
post`: the offsets from the start of the window up to the first entry that
passes the predicate, or the whole window when none does. -/
theorem Machine.FindTransition.loopTraced_snd (m : Machine) (p : Transition → Bool)
    (post : List Transition) :
    ∀ (l pre : List Transition), m.mFirstTransition = some (pre ++ l ++ post) →
      (Machine.FindTransition.loopTraced m p l.length pre.length).2 =
        List.range' pre.length
          (match l.find? p with
           | none => l.length
           | some _ => l.findIdx p + 1) := by
  intro l
  induction l with
  | nil => intro pre _; rfl
  | cons a l ih =>
    intro pre hm
    have hread : m.read pre.length = some a := by
      simp only [Machine.read, hm, List.append_assoc, List.cons_append]
      rw [List.get?_eq_getElem?, List.getElem?_append_right (le_refl _)]
      simp
    have hm2 : m.mFirstTransition = some ((pre ++ [a]) ++ l ++ post) := by
      rw [hm]; simp
    have hrest := ih (pre ++ [a]) hm2
    rw [List.length_append, List.length_singleton] at hrest
    rw [List.length_cons, Machine.FindTransition.loopTraced, hread]
    by_cases hp : p a = true
    · simp [hp, List.find?_cons, List.findIdx_cons]
    · have hp2 : p a = false := by simpa using hp
      simp only [hp2, List.find?_cons, List.findIdx_cons, cond_false, Bool.false_eq_true,
        if_false]
      rw [hrest]
      cases l.find? p with
      | none => simp [List.range'_succ]
      | some t => simp [List.range'_succ]


/-- The reads of `FindTransition` on a machine bound to the whole of `T`. -/
theorem Machine.FindTransition.probes_ofTable (T : List Transition) (c s : State)
    (e : Event) :
    Machine.FindTransition.probes (Machine.create (some T) T.length c) s e =
      List.range
        (match T.find? (FindTransitionPredicate s e) with
         | none => T.length
         | some _ => T.findIdx (FindTransitionPredicate s e) + 1) := by
  have h := Machine.FindTransition.loopTraced_snd (Machine.create (some T) T.length c)
    (FindTransitionPredicate s e) [] T [] (by simp [Machine.create, Machine.SetTransitions])
  rw [List.range_eq_range']
  simpa [Machine.FindTransition.probes, Machine.create, Machine.SetTransitions] using h

/-- C35: `FindTransition` terminates and stays in bounds. For every table
`T` of `n` entries, state `s` and event `e`, the scan returns (`NULL` or an
entry, never a read outside the table); it evaluates the predicate on at most
`n` entries, only at indices below `n`, at the indices `0, 1, 2, ...` in this
order; when it returns the entry at index `i` the indices read are `0 .. i`
and no entry before `i` matches; and when it returns `NULL` it has read
exactly the `n` indices `0 .. n - 1`. -/
theorem FindTransition_reads_in_bounds (T : List Transition) (c s : State) (e : Event) :
    (Machine.FindTransition.loopTraced (Machine.create (some T) T.length c)
        (FindTransitionPredicate s e) T.length 0).1
      = (Machine.create (some T) T.length c).FindTransition s e ∧
    (Machine.create (some T) T.length c).FindTransition s e ≠ Found.fault ∧
    (Machine.FindTransition.probes (Machine.create (some T) T.length c) s e).length
      ≤ T.length ∧
    (∀ i ∈ Machine.FindTransition.probes (Machine.create (some T) T.length c) s e,
      i < T.length) ∧
    Machine.FindTransition.probes (Machine.create (some T) T.length c) s e
      = List.range
          (Machine.FindTransition.probes (Machine.create (some T) T.length c) s e).length ∧
    (∀ (i : Nat) (t : Transition),
      (Machine.create (some T) T.length c).FindTransition s e = Found.entry i t →
      Machine.FindTransition.probes (Machine.create (some T) T.length c) s e
        = List.range (i + 1) ∧
      ∀ (j : Nat) (u : Transition), T.get? j = some u → u.mStart = s → u.mEvent = e →
        i ≤ j) ∧
    ((Machine.create (some T) T.length c).FindTransition s e = Found.null →
      Machine.FindTransition.probes (Machine.create (some T) T.length c) s e
        = List.range T.length) ∧
    ((∀ t ∈ T, ¬ (t.mStart = s ∧ t.mEvent = e)) →
      (Machine.FindTransition.probes (Machine.create (some T) T.length c) s e).length
        = T.length) := by
  have hres := FindTransition_ofTable T c s e
  have hprobes := Machine.FindTransition.probes_ofTable T c s e
  have htraced := Machine.FindTransition.loopTraced_fst (Machine.create (some T) T.length c)
    (FindTransitionPredicate s e) T.length 0
  have hsplit : T.find? (FindTransitionPredicate s e) = none ∨
      ∃ t, T.find? (FindTransitionPredicate s e) = some t := by
    cases T.find? (FindTransitionPredicate s e) with
    | none => exact Or.inl rfl
    | some t => exact Or.inr ⟨t, rfl⟩
  rcases hsplit with hfind | ⟨t0, hfind⟩
  · rw [hfind] at hres hprobes
    dsimp only at hres hprobes
    rw [hres, hprobes]
    refine ⟨htraced.trans hres, by decide, by simp, ?_, by simp, ?_, fun _ => rfl,
      fun _ => by simp⟩
    · intro i hi
      exact List.mem_range.mp hi
    · intro i t h
      exact Found.noConfusion h
  · rw [hfind] at hres hprobes
    dsimp only at hres hprobes
    have hex : ∃ x ∈ T, FindTransitionPredicate s e x = true :=
      ⟨t0, List.mem_of_find?_eq_some hfind, List.find?_some hfind⟩
    have hlt : T.findIdx (FindTransitionPredicate s e) < T.length :=
      List.findIdx_lt_length_of_exists hex
    obtain ⟨i1, t1, _, _, hmin, hleast⟩ :=
      Machine.FindTransition.loop_least T c (FindTransitionPredicate s e) hex
    have hleast' : (Machine.create (some T) T.length c).FindTransition s e
        = Found.entry i1 t1 := hleast
    rw [hres, hprobes]
    refine ⟨htraced.trans hres, ?_, ?_, ?_, by simp, ?_, ?_, ?_⟩
    · intro h
      exact Found.noConfusion h
    · simp only [List.length_range]
      omega
    · intro i hi
      have := List.mem_range.mp hi
      omega
    · intro i t h
      have hi : T.findIdx (FindTransitionPredicate s e) = i := (Found.entry.inj h).1
      refine ⟨by rw [hi], ?_⟩
      intro j u hj h1 h2
      rw [hres] at hleast'
      have hi1 : T.findIdx (FindTransitionPredicate s e) = i1 := (Found.entry.inj hleast').1
      have := hmin j u hj ((FindTransitionPredicate_iff s e u).mpr ⟨h1, h2⟩)
      omega
    · intro h
      exact Found.noConfusion h
    · intro hno
      obtain ⟨x, hx, hpx⟩ := hex
      exact absurd ((FindTransitionPredicate_iff s e x).mp hpx) (hno x hx)


/-! ## Arguments and frame of the overloads -/

/-- In the log of a pass every hook is handed the event `e`, the six
transition-taking hooks are handed `t`, and `WillHandleEvent` is handed
`s0`. -/
theorem hookCalls_passLog (e : Event) (s0 s1 : State) (t : Transition) (c : State)
    (k : Nat) (hk : k < 8) (b : Bool) :
    ∀ p ∈ hookCalls (Driver.passLog e s0 s1 t c k b),
      p.2.1 = e ∧
      (p.1 ∈ [Hook.WillExitState, Hook.DidExitState, Hook.WillTransition,
          Hook.DidTransition, Hook.WillEnterState, Hook.DidEnterState] →
        p.2.2 = HookArg.transition t) ∧
      (p.1 = Hook.WillHandleEvent → p.2.2 = HookArg.state s0) := by
  interval_cases k <;> simp [Driver.passLog, hookCalls]

/-- C31: hook arguments are consistent. In every `HandleEvent(e)` call on a
machine in state `s` that finds a transition, with `t` the first table entry
matching `(s, e)`, every hook invoked is handed the event `e`, each of
`WillExitState`, `DidExitState`, `WillTransition`, `DidTransition`,
`WillEnterState`, `DidEnterState` invoked is handed the transition `t`, and
`WillHandleEvent` is invoked and handed `s`; and `t.mStart = s`, `t.mEvent =
e`, `t` an entry of the table. -/
theorem HandleEvent_hook_arguments (T : List Transition) (s : State) (e : Event)
    (dg : Delegate.Base δ) (x : δ) (log : List Effect) (t : Transition)
    (ht : firstMatch T s e = some t) :
    ∃ (b : Bool) (w' : World δ) (delta : List Effect),
      (Driver.create (some dg)).HandleEvent e (World.ofTable T s x log) = some (b, w') ∧
      w'.log = log ++ delta ∧
      (∀ p ∈ hookCalls delta,
        p.2.1 = e ∧
        (p.1 ∈ [Hook.WillExitState, Hook.DidExitState, Hook.WillTransition,
            Hook.DidTransition, Hook.WillEnterState, Hook.DidEnterState] →
          p.2.2 = HookArg.transition t) ∧
        (p.1 = Hook.WillHandleEvent → p.2.2 = HookArg.state s)) ∧
      (Hook.WillHandleEvent, e, HookArg.state s) ∈ hookCalls delta ∧
      t ∈ T ∧ t.mStart = s ∧ t.mEvent = e := by
  obtain ⟨b, w', delta, hrun, hlog, hcase⟩ := HandleEvent_run dg T s x log e
  refine ⟨b, w', delta, hrun, hlog, ?_⟩
  rcases hcase with ⟨hnone, _, _, _⟩ | ⟨t', k, hsome, hk, hdelta, _, _, _⟩
  · rw [ht] at hnone
    exact Option.noConfusion hnone
  · rw [ht] at hsome
    cases hsome
    refine ⟨by rw [hdelta]; exact hookCalls_passLog e s t.mEnd t s k hk b, ?_,
      firstMatch_some T s e t ht⟩
    rw [hdelta]
    interval_cases k <;> simp [Driver.passLog, hookCalls]

/-- Witness of C31: a delegate that vetoes in `DidTransition`, on the
duplicate table. -/
theorem HandleEvent_hook_arguments_witness :
    firstMatch duplicateTable 0 0 = some (Transition.mk 0 0 1) ∧
    ∃ (b : Bool) (w' : World (List Bool)) (delta : List Effect),
      (Driver.create (some Delegate.Scripted)).HandleEvent 0
          (World.ofTable duplicateTable 0 [true, true, true, true, false] [])
        = some (b, w') ∧
      w'.log = [] ++ delta ∧
      (∀ p ∈ hookCalls delta,
        p.2.1 = 0 ∧
        (p.1 ∈ [Hook.WillExitState, Hook.DidExitState, Hook.WillTransition,
            Hook.DidTransition, Hook.WillEnterState, Hook.DidEnterState] →
          p.2.2 = HookArg.transition (Transition.mk 0 0 1)) ∧
        (p.1 = Hook.WillHandleEvent → p.2.2 = HookArg.state 0)) ∧
      (Hook.WillHandleEvent, 0, HookArg.state 0) ∈ hookCalls delta ∧
      Transition.mk 0 0 1 ∈ duplicateTable ∧
      (Transition.mk 0 0 1).mStart = 0 ∧ (Transition.mk 0 0 1).mEvent = 0 :=
  ⟨by decide,
   HandleEvent_hook_arguments duplicateTable 0 0 Delegate.Scripted
    [true, true, true, true, false] [] (Transition.mk 0 0 1) (by decide)⟩

/-- C32: the transition-supplying overload performs no validation. For every
driver with a machine and a delegate bound, every world, event `e`, state
argument `s` and transition `t` whatever (in the table or not, starting in
`s` or not, on `e` or not): when the call returns `true` the machine's
current state is `t.mEnd`, and when all hooks return `true`
`HandleEvent(e, s, t)` returns `true`. On the single-arc table `0 --0--> 1`
with the machine in state `0`, the call with `t = (7, 8, 9)` leaves the
machine in state `9`, which is neither the initial state nor the `mEnd` of an
entry. -/
theorem HandleEventTransition_no_validation (dg : Delegate.Base δ) (e : Event)
    (s : StateRef) (t : Transition) (w : World δ) :
    (((Driver.create (some dg)).HandleEventTransition e s t w).1 = true →
      ((Driver.create (some dg)).HandleEventTransition e s t w).2.machine.GetCurrentState
        = t.mEnd) ∧
    (dg.AlwaysReturns true →
      ((Driver.create (some dg)).HandleEventTransition e s t w).1 = true ∧
      ((Driver.create (some dg)).HandleEventTransition e s t w).2.machine.GetCurrentState
        = t.mEnd) ∧
    (((Driver.create (some Delegate.Always)).HandleEventTransition 5 (StateRef.value 6)
        (Transition.mk 7 8 9) (World.ofTable singleTable 0 () [])).1 = true ∧
     ((Driver.create (some Delegate.Always)).HandleEventTransition 5 (StateRef.value 6)
        (Transition.mk 7 8 9) (World.ofTable singleTable 0 () [])).2.machine.GetCurrentState
        = 9 ∧
     (9 : State) ≠ 0 ∧ ∀ u ∈ singleTable, u.mEnd ≠ 9) := by
  refine ⟨?_, ?_, rfl, rfl, by decide, by decide⟩
  · intro htrue
    obtain ⟨k, hk, _, hveto, hmach⟩ := HandleEventTransition_shape
      (Driver.create (some dg)) dg rfl rfl e s t w
    have hk7 : ¬ k < 6 := by
      intro hlt
      rw [hveto (by omega)] at htrue
      exact absurd htrue (by decide)
    rw [hmach, if_neg hk7]
    rfl
  · intro hdg
    obtain ⟨h1, _, h3⟩ := HandleEventTransition_always_true (Driver.create (some dg)) dg
      rfl rfl hdg e s t w
    exact ⟨h1, by rw [h3]; rfl⟩


/-- With a machine bound to the whole of `T`, `HandleEvent(inEvent, s)` with
a state object of the caller looks the transition up from `s`, wherever the
machine sits. -/
theorem HandleEventState_ofTable (d : Driver δ) (hd : d.mMachine = true)
    (T : List Transition) (c s : State) (x : δ) (log : List Effect) (e : Event) :
    d.HandleEventState e (StateRef.value s) (World.ofTable T c x log) =
      match firstMatch T s e with
      | none => some (false, World.ofTable T c x log)
      | some t => some (d.HandleEventTransition e (StateRef.value s) t
          (World.ofTable T c x log)) := by
  have h := FindTransition_ofTable T c s e
  rw [FindTransitionPredicate_eq_decide] at h
  have hne : ¬ d.mMachine = false := by rw [hd]; decide
  simp only [Driver.HandleEventState, if_neg hne, World.ofTable, StateRef.read] at h ⊢
  rw [h]
  unfold firstMatch
  cases T.find? (fun u => decide (u.mStart = s ∧ u.mEvent = e)) <;> rfl

/-- C33: the state-supplying overload looks up from the supplied state, not
from the machine's state. For every table, machine state `c`, supplied state
`s`, event `e` and driver with a machine and a delegate bound,
`HandleEvent(e, s)` returns `false` without effect when no entry matches `(s,
e)`, and runs the pass on the first entry matching `(s, e)` otherwise,
whatever `c` is; with hooks that all return `true` it then returns `true` and
the machine is in that entry's `mEnd`. On the reference table with the
machine in the dead state `D` and `Delegate::Always`, `HandleEvent(Forward,
A)` returns `true` and the machine's state becomes `B`, while
`HandleEvent(Forward)` returns `false`. -/
theorem HandleEventState_uses_supplied_state (T : List Transition) (c s : State)
    (e : Event) (dg : Delegate.Base δ) (x : δ) (log : List Effect) :
    (firstMatch T s e = none →
      (Driver.create (some dg)).HandleEventState e (StateRef.value s)
          (World.ofTable T c x log) = some (false, World.ofTable T c x log)) ∧
    (∀ t, firstMatch T s e = some t →
      (Driver.create (some dg)).HandleEventState e (StateRef.value s)
          (World.ofTable T c x log)
        = some ((Driver.create (some dg)).HandleEventTransition e (StateRef.value s) t
            (World.ofTable T c x log))) ∧
    (∀ t, firstMatch T s e = some t → dg.AlwaysReturns true →
      ∃ w' : World δ,
        (Driver.create (some dg)).HandleEventState e (StateRef.value s)
            (World.ofTable T c x log) = some (true, w') ∧
        w'.machine.GetCurrentState = t.mEnd) ∧
    (∃ w' : World Unit,
      (Driver.create (some Delegate.Always)).HandleEventState kEventForward
          (StateRef.value kStateA) (World.ofTable sTransitions kStateD () [])
        = some (true, w') ∧
      w'.machine.GetCurrentState = kStateB) ∧
    (Driver.create (some Delegate.Always)).HandleEvent kEventForward
        (World.ofTable sTransitions kStateD () [])
      = some (false, World.ofTable sTransitions kStateD () []) := by
  have hrun := HandleEventState_ofTable (Driver.create (some dg)) rfl T c s x log e
  refine ⟨?_, ?_, ?_, ⟨_, rfl, rfl⟩, rfl⟩
  · intro hnone
    rw [hrun, hnone]
  · intro t ht
    rw [hrun, ht]
  · intro t ht hdg
    rw [hrun, ht]
    obtain ⟨h1, _, h3⟩ := HandleEventTransition_always_true (Driver.create (some dg)) dg
      rfl rfl hdg e (StateRef.value s) t (World.ofTable T c x log)
    refine ⟨((Driver.create (some dg)).HandleEventTransition e (StateRef.value s) t
      (World.ofTable T c x log)).2, ?_, ?_⟩
    · dsimp only
      rw [← h1]
    · rw [h3]; rfl

/-- A pass leaves the machine as it was or with only its current state set
to the end of the transition. -/
theorem HandleEventTransition_machine (d : Driver δ) (e : Event) (s : StateRef)
    (t : Transition) (w : World δ) :
    (d.HandleEventTransition e s t w).2.machine = w.machine ∨
    (d.HandleEventTransition e s t w).2.machine = w.machine.SetCurrentState t.mEnd := by
  by_cases hm : d.mMachine = true
  · have hsplit : d.mDelegate = none ∨ ∃ dg, d.mDelegate = some dg := by
      cases d.mDelegate with
      | none => exact Or.inl rfl
      | some dg => exact Or.inr ⟨dg, rfl⟩
    rcases hsplit with hdg | ⟨dg, hdg⟩
    · rw [HandleEventTransition_no_delegate d hdg]
      exact Or.inl rfl
    · obtain ⟨k, _, _, _, hmach⟩ := HandleEventTransition_shape d dg hm hdg e s t w
      rw [hmach]
      by_cases hk : k < 6
      · rw [if_pos hk]; exact Or.inl rfl
      · rw [if_neg hk]; exact Or.inr rfl
  · have hm2 : d.mMachine = false := by simpa using hm
    left
    simp [Driver.HandleEventTransition, hm2]


/-- C34: frame of `HandleEvent` and `FindTransition`. For every driver,
event, state argument, transition and world, no `HandleEvent` overload
changes the machine's table pointer or its count, so `FindTransition` answers
every query after the call as before it; a call on a machine bound to the
whole of a table returns and leaves it bound to that table; and
`FindTransition`, which has no effect on the machine, is a function of the
table pointer and the count alone. The driver itself is not written by any
overload: an overload takes the driver and the world and gives back a status
and a world. -/
theorem HandleEvent_frame (d : Driver δ) (e : Event) (s : StateRef) (t : Transition)
    (w : World δ) (T : List Transition) (c : State) (x : δ) (log : List Effect)
    (s' : State) (e' : Event) :
    ((d.HandleEventTransition e s t w).2.machine.mFirstTransition
        = w.machine.mFirstTransition ∧
      (d.HandleEventTransition e s t w).2.machine.mCount = w.machine.mCount ∧
      (d.HandleEventTransition e s t w).2.machine.FindTransition s' e'
        = w.machine.FindTransition s' e') ∧
    (∀ r, d.HandleEventState e s w = some r →
      r.2.machine.mFirstTransition = w.machine.mFirstTransition ∧
      r.2.machine.mCount = w.machine.mCount ∧
      r.2.machine.FindTransition s' e' = w.machine.FindTransition s' e') ∧
    (∀ r, d.HandleEvent e w = some r →
      r.2.machine.mFirstTransition = w.machine.mFirstTransition ∧
      r.2.machine.mCount = w.machine.mCount ∧
      r.2.machine.FindTransition s' e' = w.machine.FindTransition s' e') ∧
    (∃ r, d.HandleEvent e (World.ofTable T c x log) = some r ∧
      r.2.machine.mFirstTransition = some T ∧ r.2.machine.mCount = T.length) ∧
    (∀ m m' : Machine, m.mFirstTransition = m'.mFirstTransition → m.mCount = m'.mCount →
      m.FindTransition s' e' = m'.FindTransition s' e') := by
  have hfind : ∀ m m' : Machine, m.mFirstTransition = m'.mFirstTransition →
      m.mCount = m'.mCount → m.FindTransition s' e' = m'.FindTransition s' e' := by
    intro m m' h1 h2
    unfold Machine.FindTransition
    rw [h2]
    exact Machine.FindTransition.loop_congr m m' _ h1 _ _
  have hpass : ∀ (s : StateRef) (t : Transition),
      (d.HandleEventTransition e s t w).2.machine.mFirstTransition
        = w.machine.mFirstTransition ∧
      (d.HandleEventTransition e s t w).2.machine.mCount = w.machine.mCount ∧
      (d.HandleEventTransition e s t w).2.machine.FindTransition s' e'
        = w.machine.FindTransition s' e' := by
    intro s t
    have hfields : (d.HandleEventTransition e s t w).2.machine.mFirstTransition
          = w.machine.mFirstTransition ∧
        (d.HandleEventTransition e s t w).2.machine.mCount = w.machine.mCount := by
      rcases HandleEventTransition_machine d e s t w with h | h
      · rw [h]; exact ⟨rfl, rfl⟩
      · rw [h]; exact ⟨rfl, rfl⟩
    exact ⟨hfields.1, hfields.2, hfind _ _ hfields.1 hfields.2⟩
  have hstate : ∀ (s : StateRef) (r : Bool × World δ), d.HandleEventState e s w = some r →
      r.2.machine.mFirstTransition = w.machine.mFirstTransition ∧
      r.2.machine.mCount = w.machine.mCount ∧
      r.2.machine.FindTransition s' e' = w.machine.FindTransition s' e' := by
    intro s r hr
    unfold Driver.HandleEventState at hr
    split at hr
    · cases hr
      exact ⟨rfl, rfl, rfl⟩
    · split at hr
      · exact Option.noConfusion hr
      · cases hr
        exact ⟨rfl, rfl, rfl⟩
      · cases hr
        exact hpass s _
  refine ⟨hpass s t, hstate s, ?_, ?_, hfind⟩
  · intro r hr
    unfold Driver.HandleEvent at hr
    split at hr
    · cases hr
      exact ⟨rfl, rfl, rfl⟩
    · exact hstate StateRef.current r hr
  · obtain ⟨b, c', x', log', hrun, _, _, _⟩ := HandleEvent_step d T c x log e
    exact ⟨_, hrun, rfl, rfl⟩

/-- C36: `rand_range` with an inverted range returns zero without drawing.
For every instantiation and all `min > max`, `rand_range(min, max)` returns
the conversion of `0` and leaves the generator as it was; over the integers
the value returned is `0`, which for `min = 10`, `max = 3` does not lie
between `max` and `min`; and `rand_range<bool>(true, false)` returns
`false`. -/
theorem rand_range_inverted {T γ : Type} (toInt : T → Int) (ofInt : Int → T)
    (arith : Int → Int) (lrand48 : γ → Int × γ) (min max : T) (g : γ)
    (h : toInt min > toInt max) :
    rand_range toInt ofInt arith lrand48 min max g = (ofInt 0, g) ∧
    (∀ a b : Int, a > b → rand_range id id arith lrand48 a b g = (0, g)) ∧
    rand_range id id arith lrand48 (10 : Int) 3 g = (0, g) ∧
    ¬ ((3 : Int) ≤ 0 ∧ (0 : Int) ≤ 10) ∧
    rand_range boolToInt intToBool (wrapSigned 32) lrand48 true false g = (false, g) := by
  have hint : ∀ a b : Int, a > b → rand_range id id arith lrand48 a b g = (0, g) := by
    intro a b hab
    have hab' : id a > id b := hab
    unfold rand_range
    rw [if_pos hab']
    rfl
  refine ⟨?_, hint, hint 10 3 (by decide), by decide, ?_⟩
  · unfold rand_range
    rw [if_pos h]
  · have hb : boolToInt true > boolToInt false := by decide
    unfold rand_range
    rw [if_pos hb]
    rfl

/-- Witness of C36: the range `10 .. 3` of `int` on the sample generator. -/
theorem rand_range_inverted_witness :
    id (10 : Int) > id 3 ∧
    rand_range id id (wrapSigned 32) sampleLrand48 (10 : Int) 3 (sampleSrand48 0)
      = (id 0, sampleSrand48 0) ∧
    (∀ a b : Int, a > b →
      rand_range id id (wrapSigned 32) sampleLrand48 a b (sampleSrand48 0)
        = (0, sampleSrand48 0)) ∧
    rand_range id id (wrapSigned 32) sampleLrand48 (10 : Int) 3 (sampleSrand48 0)
      = (0, sampleSrand48 0) ∧
    ¬ ((3 : Int) ≤ 0 ∧ (0 : Int) ≤ 10) ∧
    rand_range boolToInt intToBool (wrapSigned 32) sampleLrand48 true false (sampleSrand48 0)
      = (false, sampleSrand48 0) :=
  ⟨by decide,
   rand_range_inverted id id (wrapSigned 32) sampleLrand48 (10 : Int) 3 (sampleSrand48 0)
    (by decide)⟩

end Fsm
